import Mathlib

/-!
Verification of the lasso-selection geometry pipeline of this repository
(`lasso_selection.h` / `lasso_selection.cpp`).

Modelling conventions:
* C++ `int` is modelled as `Int` (no overflow occurs in the quantities of
  interest; all inputs considered are small).
* C++ `double` values here are always exact results of ring operations on
  integers, divisions, and square roots used only inside comparisons, so
  they are modelled exactly by `ℚ`: a comparison `sqrt a < sqrt b` (or
  `sqrt a < b` with `0 ≤ b`) is replaced by the equivalent comparison of
  squares.  In particular `perpendicularDistance` (which returns
  `cross / sqrt L`) is modelled by its square `perpDistSq`.
* `std::vector` is a `List`; out-of-range indexing never happens in the
  source, and is modelled by `List.getD` with a default.
* Signed `epsilon < 0` makes the C++ `rdpSimplify` recursion diverge
  (stack overflow); the model uses explicit fuel, which is provably
  sufficient whenever `0 ≤ epsilon`.
-/

/-- Lasso path point in tile coordinates (`struct LassoPoint`). -/
structure LassoPoint where
  x : Int
  y : Int
deriving DecidableEq, Repr

/-- `LassoPoint::distanceSquaredTo` (exact: integer products in `double`). -/
def LassoPoint.distanceSquaredTo (p other : LassoPoint) : ℚ :=
  let dx : ℚ := (p.x : ℚ) - (other.x : ℚ)
  let dy : ℚ := (p.y : ℚ) - (other.y : ℚ)
  dx * dx + dy * dy

/-- Bounding box with `hasPoints` flag (`struct LassoBoundingBox`). -/
structure LassoBoundingBox where
  minX : Int
  minY : Int
  maxX : Int
  maxY : Int
  hasPoints : Bool
deriving DecidableEq, Repr

/-- `LassoBoundingBox::reset` (also the default constructor state). -/
def LassoBoundingBox.reset : LassoBoundingBox :=
  { minX := 0, minY := 0, maxX := 0, maxY := 0, hasPoints := false }

/-- `LassoBoundingBox::expand`. -/
def LassoBoundingBox.expand (b : LassoBoundingBox) (x y : Int) : LassoBoundingBox :=
  if b.hasPoints then
    { minX := min b.minX x, minY := min b.minY y,
      maxX := max b.maxX x, maxY := max b.maxY y, hasPoints := true }
  else
    { minX := x, minY := y, maxX := x, maxY := y, hasPoints := true }

/-- `LassoBoundingBox::contains`. -/
def LassoBoundingBox.contains (b : LassoBoundingBox) (x y : Int) : Bool :=
  b.hasPoints && decide (b.minX ≤ x) && decide (x ≤ b.maxX) &&
    decide (b.minY ≤ y) && decide (y ≤ b.maxY)

/-- `LassoBoundingBox::isValid`. -/
def LassoBoundingBox.isValid (b : LassoBoundingBox) : Bool :=
  b.hasPoints && decide (b.minX ≤ b.maxX) && decide (b.minY ≤ b.maxY)

/-- `LassoBoundingBox::width`. -/
def LassoBoundingBox.width (b : LassoBoundingBox) : Int :=
  if b.hasPoints then b.maxX - b.minX else 0

/-- `LassoBoundingBox::height`. -/
def LassoBoundingBox.height (b : LassoBoundingBox) : Int :=
  if b.hasPoints then b.maxY - b.minY else 0

/-- Active-edge-table entry (`struct LassoEdge`). -/
structure LassoEdge where
  yMax : Int
  x : ℚ
  invSlope : ℚ
deriving DecidableEq, Repr

/-- Modelled from the spec: `Position` is defined in `position.h`, which is
not under `src/`; §3/§6 of the spec describe the fill output as plain
integer triples `(x, y, floor)`, constructed as `Position(x, y, floor)`. -/
structure Position where
  x : Int
  y : Int
  z : Int
deriving DecidableEq, Repr

/-- State of `class LassoSelection` (all data members). -/
structure LassoSelection where
  m_path : List LassoPoint
  m_simplifiedPath : List LassoPoint
  m_boundingBox : LassoBoundingBox
  m_active : Bool
  m_closed : Bool
  m_minPointDistance : ℚ
  m_minPointDistanceSquared : ℚ
  m_simplifyTolerance : ℚ
deriving DecidableEq, Repr

/-- The `LassoSelection()` constructor. -/
def LassoSelection.init : LassoSelection :=
  { m_path := [], m_simplifiedPath := [], m_boundingBox := LassoBoundingBox.reset,
    m_active := false, m_closed := false,
    m_minPointDistance := 1/2, m_minPointDistanceSquared := 1/4,
    m_simplifyTolerance := 1/2 }

/-- Vector indexing `points[i]` (always in range in the source). -/
def pget (l : List LassoPoint) (i : ℕ) : LassoPoint :=
  l.getD i { x := 0, y := 0 }

/-- `LassoSelection::clear`. -/
def LassoSelection.clear (s : LassoSelection) : LassoSelection :=
  { s with m_path := [], m_simplifiedPath := [],
           m_boundingBox := LassoBoundingBox.reset,
           m_active := false, m_closed := false }

/-- `LassoSelection::addPoint`. -/
def LassoSelection.addPoint (s : LassoSelection) (x y : Int) : LassoSelection :=
  let newPoint : LassoPoint := { x := x, y := y }
  let tooClose : Bool :=
    match s.m_path.getLast? with
    | some last => decide (last.distanceSquaredTo newPoint < s.m_minPointDistanceSquared)
    | none => false
  if tooClose then s
  else
    let path := s.m_path ++ [newPoint]
    let simplified :=
      if path.length ≤ 2 then path
      else if path.length % 20 = 0 then path
      else s.m_simplifiedPath
    { s with m_path := path,
             m_boundingBox := s.m_boundingBox.expand x y,
             m_simplifiedPath := simplified }

/-- Square of `LassoSelection::perpendicularDistance` (cross-product over
chord length, falling back to point distance on zero-length chords). -/
def perpDistSq (point lineStart lineEnd : LassoPoint) : ℚ :=
  let dx : ℚ := (lineEnd.x : ℚ) - (lineStart.x : ℚ)
  let dy : ℚ := (lineEnd.y : ℚ) - (lineStart.y : ℚ)
  let lineLengthSq := dx * dx + dy * dy
  if lineLengthSq = 0 then point.distanceSquaredTo lineStart
  else
    let cross := ((point.x : ℚ) - (lineStart.x : ℚ)) * dy -
      ((point.y : ℚ) - (lineStart.y : ℚ)) * dx
    cross * cross / lineLengthSq

/-- The `maxDist` / `maxIndex` scan loop of `rdpSimplify`, on an explicit
index list; squared distances compare the same way the `double` distances
do, because all of them share the chord `(s, e)`. -/
def maxScanAux (points : List LassoPoint) (s e : ℕ) :
    List ℕ → ℚ × ℕ → ℚ × ℕ
  | [], acc => acc
  | i :: is, acc =>
    let d := perpDistSq (pget points i) (pget points s) (pget points e)
    maxScanAux points s e is (if acc.1 < d then (d, i) else acc)

/-- The scan `for (i = start + 1; i < end; ++i)` of `rdpSimplify`. -/
def maxScan (points : List LassoPoint) (s e : ℕ) : ℚ × ℕ :=
  maxScanAux points s e (List.range' (s + 1) (e - s - 1)) (0, s)

/-- `LassoSelection::rdpSimplify`.  `keep` is the set of marked indices.
The test `maxDist > epsilon` on nonnegative `maxDist` is modelled as
`epsilon < 0 ∨ epsilon ^ 2 < maxDistSq`.  The fuel argument only limits
recursion depth; `simplifyPath` passes fuel that is provably sufficient
whenever `0 ≤ epsilon` (for `epsilon < 0` the C++ recursion diverges). -/
def rdpSimplify (points : List LassoPoint) (epsilon : ℚ) :
    ℕ → ℕ → ℕ → Finset ℕ → Finset ℕ
  | 0, _, _, keep => keep
  | fuel + 1, s, e, keep =>
    if e - s < 2 then keep
    else if epsilon < 0 ∨ epsilon ^ 2 < (maxScan points s e).1 then
      rdpSimplify points epsilon fuel (maxScan points s e).2 e
        (rdpSimplify points epsilon fuel s (maxScan points s e).2
          (insert (maxScan points s e).2 keep))
    else keep

/-- `LassoSelection::simplifyPath`. -/
def LassoSelection.simplifyPath (s : LassoSelection) : LassoSelection :=
  if s.m_path.length < 3 then { s with m_simplifiedPath := s.m_path }
  else
    let n := s.m_path.length
    let keep := rdpSimplify s.m_path s.m_simplifyTolerance n 0 (n - 1)
      (insert 0 {n - 1})
    { s with m_simplifiedPath :=
        ((List.range n).filter (fun i => decide (i ∈ keep))).map (pget s.m_path) }

/-- `LassoSelection::closePath`. -/
def LassoSelection.closePath (s : LassoSelection) : LassoSelection :=
  if s.m_path.length < 3 then s.clear
  else
    let path :=
      if s.m_path.head? = s.m_path.getLast? then s.m_path
      else s.m_path ++ [s.m_path.headD { x := 0, y := 0 }]
    LassoSelection.simplifyPath { s with m_path := path, m_closed := true }

/-- The polygon a query works on: simplified path if nonempty, else raw. -/
def LassoSelection.queryPoly (s : LassoSelection) : List LassoPoint :=
  if s.m_simplifiedPath.isEmpty then s.m_path else s.m_simplifiedPath

/-- Consecutive vertex pairs `(poly[i], poly[i+1])`. -/
def edgePairs (poly : List LassoPoint) : List (LassoPoint × LassoPoint) :=
  poly.zip poly.tail

/-- Edge-table entry built by `buildEdgeTable` from one vertex pair:
`none` for horizontal edges, otherwise `(yMin, {yMax, xAtYMin, invSlope})`. -/
def edgeOf (p1 p2 : LassoPoint) : Option (Int × LassoEdge) :=
  if p1.y = p2.y then none
  else
    some (min p1.y p2.y,
      { yMax := max p1.y p2.y,
        x := if p1.y < p2.y then (p1.x : ℚ) else (p2.x : ℚ),
        invSlope := ((p2.x : ℚ) - (p1.x : ℚ)) / ((p2.y : ℚ) - (p1.y : ℚ)) })

/-- The bucket `edgeTable[y - minY]` built by `buildEdgeTable`: edges whose
`yMin` equals `y`, in source order, subject to the guard
`0 ≤ bucketIndex < height`. -/
def bucketAt (poly : List LassoPoint) (minY maxY y : Int) : List LassoEdge :=
  (edgePairs poly).filterMap (fun pq =>
    match edgeOf pq.1 pq.2 with
    | none => none
    | some yme =>
      if yme.1 = y ∧ minY ≤ yme.1 ∧ yme.1 ≤ maxY then some yme.2 else none)

/-- `std::sort(activeEdges, ..., a.x < b.x)`: sorted by `x`.  `std::sort` is
not stable, but every behaviour it may choose yields the same sorted
sequence of `x` values, which is all the fill below depends on; the model
fixes the stable choice. -/
def sortByX (edges : List LassoEdge) : List LassoEdge :=
  edges.insertionSort (fun a b => a.x ≤ b.x)

/-- Cells `ceil(xLow) .. floor(xHigh)` emitted for one intersection pair. -/
def rangeCells (floorIdx y : Int) (xLow xHigh : ℚ) : List Position :=
  (List.range (⌊xHigh⌋ + 1 - ⌈xLow⌉).toNat).map
    (fun k : ℕ => { x := ⌈xLow⌉ + (k : Int), y := y, z := floorIdx })

/-- `for (i = 0; i + 1 < activeEdges.size(); i += 2)`: fill between pairs. -/
def pairRows (floorIdx y : Int) : List LassoEdge → List Position
  | a :: b :: rest => rangeCells floorIdx y a.x b.x ++ pairRows floorIdx y rest
  | _ => []

/-- The scanline loop of `scanlineFillAET`: per row, merge the bucket into
the active list, evict edges with `yMax == y`, and unless empty sort,
fill between pairs, and advance each `x` by `invSlope`. -/
def scanLoop (floorIdx : Int) (bucket : Int → List LassoEdge) :
    List Int → List LassoEdge → List Position → List Position
  | [], _, tiles => tiles
  | y :: ys, active, tiles =>
    if ((active ++ bucket y).filter (fun e => decide (e.yMax ≠ y))).isEmpty then
      scanLoop floorIdx bucket ys
        ((active ++ bucket y).filter (fun e => decide (e.yMax ≠ y))) tiles
    else
      scanLoop floorIdx bucket ys
        ((sortByX ((active ++ bucket y).filter
          (fun e => decide (e.yMax ≠ y)))).map
            (fun e => { e with x := e.x + e.invSlope }))
        (tiles ++ pairRows floorIdx y
          (sortByX ((active ++ bucket y).filter
            (fun e => decide (e.yMax ≠ y)))))

/-- `LassoSelection::scanlineFillAET`. -/
def LassoSelection.scanlineFillAET (s : LassoSelection) (floorIdx : Int) :
    List Position :=
  if s.queryPoly.length < 3 then []
  else if !s.m_boundingBox.isValid then []
  else
    scanLoop floorIdx
      (bucketAt s.queryPoly s.m_boundingBox.minY s.m_boundingBox.maxY)
      ((List.range (s.m_boundingBox.maxY + 1 - s.m_boundingBox.minY).toNat).map
        (fun k : ℕ => s.m_boundingBox.minY + (k : Int)))
      [] []

/-- `LassoSelection::getTilesInPolygon`. -/
def LassoSelection.getTilesInPolygon (s : LassoSelection) (floorIdx : Int) :
    List Position :=
  if !s.m_closed || s.m_path.length < 3 then []
  else s.scanlineFillAET floorIdx

/-- Index of the previous vertex in the ray-casting loop
(`j = poly.size() - 1` initially, then `j = i - 1`). -/
def pipPrev (len i : ℕ) : ℕ :=
  if i = 0 then len - 1 else i - 1

/-- Loop-body condition of `pointInPolygon`: the edge `(poly[j], poly[i])`
crosses the horizontal line at `y` (half-open in y) and its intersection,
computed with C++ `int` division (truncation toward zero = `Int.tdiv`),
lies strictly to the right of `x`. -/
def pipCond (poly : List LassoPoint) (x y : Int) (i : ℕ) : Bool :=
  (decide ((pget poly i).y > y) !=
      decide ((pget poly (pipPrev poly.length i)).y > y)) &&
    decide (x <
      Int.tdiv
        (((pget poly (pipPrev poly.length i)).x - (pget poly i).x) *
          (y - (pget poly i).y))
        ((pget poly (pipPrev poly.length i)).y - (pget poly i).y) +
        (pget poly i).x)

/-- `LassoSelection::pointInPolygon` (ray casting). -/
def LassoSelection.pointInPolygon (s : LassoSelection) (x y : Int) : Bool :=
  let poly := s.queryPoly
  if poly.length < 3 then false
  else
    (List.range poly.length).foldl
      (fun inside i => if pipCond poly x y i then !inside else inside)
      false

/-- Run `addPoint` on a list of samples in order. -/
def LassoSelection.addAll (s : LassoSelection) (pts : List (Int × Int)) :
    LassoSelection :=
  pts.foldl (fun t p => t.addPoint p.1 p.2) s

/-- The closed unit-square session of §8 of the spec:
corners (0,0), (0,3), (3,3), (3,0) added in order, then closed. -/
def squareSession : LassoSelection :=
  (LassoSelection.init.addAll [(0, 0), (0, 3), (3, 3), (3, 0)]).closePath

/-- A self-touching w-shaped session: (0,0), (1,2), (2,0), (3,2), (4,0),
closed; its two intersection pairs on scanline 0 share the cell x = 2. -/
def wSession : LassoSelection :=
  (LassoSelection.init.addAll [(0, 0), (1, 2), (2, 0), (3, 2), (4, 0)]).closePath

/-- The 12 cells the square session actually fills: rows 0..2 of the 4-wide
box.  Row 3 is missing because both vertical edges have `yMax = 3` and an
edge is active only on `[yMin, yMax)`. -/
def cells12 : List Position :=
  [{ x := 0, y := 0, z := 0 }, { x := 1, y := 0, z := 0 },
   { x := 2, y := 0, z := 0 }, { x := 3, y := 0, z := 0 },
   { x := 0, y := 1, z := 0 }, { x := 1, y := 1, z := 0 },
   { x := 2, y := 1, z := 0 }, { x := 3, y := 1, z := 0 },
   { x := 0, y := 2, z := 0 }, { x := 1, y := 2, z := 0 },
   { x := 2, y := 2, z := 0 }, { x := 3, y := 2, z := 0 }]

/-- A 3-point session given directly as state (used as witness input). -/
def demoSession : LassoSelection :=
  { LassoSelection.init with
    m_path := [{ x := 0, y := 0 }, { x := 0, y := 3 }, { x := 3, y := 3 }] }

/-- Bounding-box invariant: `hasPoints` tracks path nonemptiness, every
path point lies inside the box, and each of the four bounds is attained
by some path point (so the box is the smallest box containing the path). -/
def bboxInv (s : LassoSelection) : Prop :=
  (s.m_boundingBox.hasPoints = true ↔ s.m_path ≠ []) ∧
  (∀ p ∈ s.m_path,
    s.m_boundingBox.minX ≤ p.x ∧ p.x ≤ s.m_boundingBox.maxX ∧
    s.m_boundingBox.minY ≤ p.y ∧ p.y ≤ s.m_boundingBox.maxY) ∧
  (s.m_path ≠ [] →
    (∃ p ∈ s.m_path, p.x = s.m_boundingBox.minX) ∧
    (∃ p ∈ s.m_path, p.x = s.m_boundingBox.maxX) ∧
    (∃ p ∈ s.m_path, p.y = s.m_boundingBox.minY) ∧
    (∃ p ∈ s.m_path, p.y = s.m_boundingBox.maxY))

/-- The set of indices `rdpSimplify` marks on range `[s, e]` (the writes it
performs, separated from the incoming `keep` marks, which it never reads). -/
def rdpMarks (points : List LassoPoint) (epsilon : ℚ) :
    ℕ → ℕ → ℕ → Finset ℕ
  | 0, _, _ => ∅
  | fuel + 1, s, e =>
    if e - s < 2 then ∅
    else if epsilon < 0 ∨ epsilon ^ 2 < (maxScan points s e).1 then
      insert (maxScan points s e).2
        (rdpMarks points epsilon fuel s (maxScan points s e).2 ∪
          rdpMarks points epsilon fuel (maxScan points s e).2 e)
    else ∅

/-- Distance of `points[i]` to the chord `(points[s], points[e])`, squared. -/
def dPt (points : List LassoPoint) (s e i : ℕ) : ℚ :=
  perpDistSq (pget points i) (pget points s) (pget points e)

/-- Soundness of an active edge at scanline `y`: it has not expired, and
its incrementally-updated intersection stays within `[lo, hi]` on every
remaining scanline of its span. -/
def edgeOk (lo hi : Int) (y : Int) (e : LassoEdge) : Prop :=
  y ≤ e.yMax ∧ ∀ z : Int, y ≤ z → z < e.yMax →
    (lo : ℚ) ≤ e.x + e.invSlope * ((z : ℚ) - (y : ℚ)) ∧
    e.x + e.invSlope * ((z : ℚ) - (y : ℚ)) ≤ (hi : ℚ)

/-- Structural helper: `simplifyPath` only rewrites `m_simplifiedPath`. -/
theorem simplifyPath_eq_fields (s : LassoSelection) :
    s.simplifyPath.m_path = s.m_path ∧
    s.simplifyPath.m_boundingBox = s.m_boundingBox ∧
    s.simplifyPath.m_active = s.m_active ∧
    s.simplifyPath.m_closed = s.m_closed ∧
    s.simplifyPath.m_minPointDistance = s.m_minPointDistance ∧
    s.simplifyPath.m_minPointDistanceSquared = s.m_minPointDistanceSquared ∧
    s.simplifyPath.m_simplifyTolerance = s.m_simplifyTolerance := by
  unfold LassoSelection.simplifyPath
  split <;> exact ⟨rfl, rfl, rfl, rfl, rfl, rfl, rfl⟩

/-- C1 counterexample: the square polygon (0,0),(0,3),(3,3),(3,0), closed,
does not fill the cell (0,3) on floor 0 (and fills only 12 cells, not 16):
the claimed 4×4 inclusive grid is wrong on the code. -/
theorem squareFill_ne_sixteen :
    ({ x := 0, y := 3, z := 0 } : Position) ∉ squareSession.getTilesInPolygon 0 ∧
    (squareSession.getTilesInPolygon 0).length = 12 := by
  constructor
  · with_unfolding_all decide
  · with_unfolding_all decide

/-- C1 amended: the square session fills exactly the 12 cells
`(0..3, 0..2, 0)`, each exactly once; the top row `y = 3` is excluded
because each edge is active on the half-open span `[yMin, yMax)`. -/
theorem squareFill_exact :
    squareSession.getTilesInPolygon 0 = cells12 ∧ cells12.Nodup ∧
    ∀ p : Position,
      p ∈ cells12 ↔ 0 ≤ p.x ∧ p.x ≤ 3 ∧ 0 ≤ p.y ∧ p.y ≤ 2 ∧ p.z = 0 := by
  refine ⟨by with_unfolding_all decide, by decide, ?_⟩
  intro p
  obtain ⟨px, py, pz⟩ := p
  simp only [cells12, List.mem_cons, List.not_mem_nil, or_false,
    Position.mk.injEq]
  omega

/-- The closing step of `closePath` produces a path whose first and last
entries agree. -/
theorem closedPath_head_last (p : List LassoPoint) (h : p ≠ []) :
    (if p.head? = p.getLast? then p
     else p ++ [p.headD { x := 0, y := 0 }]).head? =
    (if p.head? = p.getLast? then p
     else p ++ [p.headD { x := 0, y := 0 }]).getLast? := by
  obtain ⟨p0, rest, rfl⟩ := List.exists_cons_of_ne_nil h
  split
  · next heq => exact heq
  · show ((p0 :: rest) ++ [p0]).head? = ((p0 :: rest) ++ [p0]).getLast?
    rw [List.getLast?_concat]
    rfl

/-- C2: `closePath` on ≥ 3 points closes the path (appending the first
point if needed) and marks the session closed; on < 3 points it fully
resets the session. -/
theorem closePath_spec (s : LassoSelection) :
    (3 ≤ s.m_path.length →
      s.closePath.m_path.head? = s.closePath.m_path.getLast? ∧
      s.closePath.m_closed = true ∧
      s.closePath.m_path =
        (if s.m_path.head? = s.m_path.getLast? then s.m_path
         else s.m_path ++ [s.m_path.headD { x := 0, y := 0 }])) ∧
    (s.m_path.length < 3 →
      s.closePath.m_path = [] ∧ s.closePath.m_simplifiedPath = [] ∧
      s.closePath.m_boundingBox = LassoBoundingBox.reset ∧
      s.closePath.m_active = false ∧ s.closePath.m_closed = false) := by
  constructor
  · intro hlen
    have hne : s.m_path ≠ [] := by
      intro h0; rw [h0] at hlen; simp at hlen
    unfold LassoSelection.closePath
    rw [if_neg (by omega)]
    obtain ⟨hp, _, _, hc, _, _, _⟩ := simplifyPath_eq_fields
      { s with
        m_path :=
          if s.m_path.head? = s.m_path.getLast? then s.m_path
          else s.m_path ++ [s.m_path.headD { x := 0, y := 0 }],
        m_closed := true }
    refine ⟨?_, hc, hp⟩
    rw [hp]
    exact closedPath_head_last s.m_path hne
  · intro hlen
    unfold LassoSelection.closePath
    rw [if_pos hlen]
    exact ⟨rfl, rfl, rfl, rfl, rfl⟩

/-- C2 witness: concrete instantiations of both branches. -/
theorem closePath_spec_witness :
    demoSession.closePath.m_closed = true ∧
    LassoSelection.init.closePath.m_path = [] :=
  ⟨((closePath_spec demoSession).1 (by decide)).2.1,
   ((closePath_spec LassoSelection.init).2 (by decide)).1⟩

/-- C3 counterexample: the w-shaped closed polygon
(0,0),(1,2),(2,0),(3,2),(4,0) produces a duplicated cell — scanline 0 has
two intersection pairs that share x = 2, so (2,0,0) is emitted twice. -/
theorem wFill_not_nodup : ¬ (wSession.getTilesInPolygon 0).Nodup := by
  with_unfolding_all decide

/-- C3 amended: within a single intersection pair the emitted cells are
pairwise distinct (strictly increasing x), and every cell emitted at
scanline `y` carries that `y`, so duplicates can arise only from distinct
intersection pairs of the same scanline (as the w-polygon shows). -/
theorem fill_row_structure :
    (∀ f y : Int, ∀ a b : ℚ, (rangeCells f y a b).Nodup) ∧
    (∀ f y : Int, ∀ l : List LassoEdge, ∀ p ∈ pairRows f y l, p.y = y) := by
  constructor
  · intro f y lo hi
    have hinj : Function.Injective
        (fun k : ℕ => ({ x := ⌈lo⌉ + (k : Int), y := y, z := f } : Position)) := by
      intro i j hij
      simp only [Position.mk.injEq] at hij
      omega
    exact List.Nodup.map hinj (List.nodup_range _)
  · intro f y l
    induction l using pairRows.induct f y with
    | case1 a b rest ih =>
      intro p hp
      rw [pairRows] at hp
      rcases List.mem_append.mp hp with h | h
      · unfold rangeCells at h
        obtain ⟨k, _, hk⟩ := List.mem_map.mp h
        rw [← hk]
      · exact ih p h
    | case2 t h1 =>
      intro p hp
      cases t with
      | nil => simp [pairRows] at hp
      | cons a tl =>
        cases tl with
        | nil => simp [pairRows] at hp
        | cons b rest => exact absurd rfl (h1 a b rest)

/-- C3 amended witness: concrete instantiation of both conjuncts. -/
theorem fill_row_structure_witness :
    (rangeCells 0 5 0 3).Nodup ∧
    ({ x := 1, y := 5, z := 0 } : Position).y = 5 :=
  ⟨fill_row_structure.1 0 5 0 3,
   fill_row_structure.2 0 5
     [{ yMax := 7, x := 0, invSlope := 0 }, { yMax := 7, x := 3, invSlope := 0 }]
     { x := 1, y := 5, z := 0 } (by with_unfolding_all decide)⟩

/-- C4: `addPoint` appends iff the raw path is empty or the squared
distance from the last accepted point reaches the cached squared minimum
(defaults: 0.5 and 0.25 = 0.5²); a too-close sample leaves the session
completely unchanged. -/
theorem addPoint_spec (s : LassoSelection) (x y : Int) :
    (s.m_path = [] → (s.addPoint x y).m_path = s.m_path ++ [{ x := x, y := y }]) ∧
    (∀ last, s.m_path.getLast? = some last →
      (s.m_minPointDistanceSquared ≤ last.distanceSquaredTo { x := x, y := y } →
        (s.addPoint x y).m_path = s.m_path ++ [{ x := x, y := y }]) ∧
      (last.distanceSquaredTo { x := x, y := y } < s.m_minPointDistanceSquared →
        s.addPoint x y = s)) ∧
    (LassoSelection.init.m_minPointDistance = 1/2 ∧
     LassoSelection.init.m_minPointDistanceSquared =
       LassoSelection.init.m_minPointDistance ^ 2) := by
  refine ⟨?_, ?_, by norm_num [LassoSelection.init]⟩
  · intro hnil
    unfold LassoSelection.addPoint
    rw [hnil]
    simp
  · intro last hlast
    constructor
    · intro hfar
      unfold LassoSelection.addPoint
      rw [hlast]
      simp only [decide_eq_true_eq]
      rw [if_neg (by simp [not_lt.mpr hfar])]
    · intro hnear
      unfold LassoSelection.addPoint
      rw [hlast]
      simp only [decide_eq_true_eq]
      rw [if_pos (by simp [hnear])]

/-- C4 witness: concrete instantiation on the initial session. -/
theorem addPoint_spec_witness :
    (LassoSelection.init.addPoint 5 7).m_path =
      LassoSelection.init.m_path ++ [{ x := 5, y := 7 }] :=
  (addPoint_spec LassoSelection.init 5 7).1 rfl

/-- C7: `getTilesInPolygon` returns the empty collection whenever the
session is not closed, the raw path has fewer than 3 points, or the
bounding box is invalid. -/
theorem getTilesInPolygon_degenerate (s : LassoSelection) (floorIdx : Int)
    (h : s.m_closed = false ∨ s.m_path.length < 3 ∨
      s.m_boundingBox.isValid = false) :
    s.getTilesInPolygon floorIdx = [] := by
  rcases h with h | h | h
  · simp [LassoSelection.getTilesInPolygon, h]
  · simp [LassoSelection.getTilesInPolygon, h]
  · unfold LassoSelection.getTilesInPolygon
    split
    · rfl
    · simp [LassoSelection.scanlineFillAET, h]

/-- C7 witness: the initial session yields an empty fill. -/
theorem getTilesInPolygon_degenerate_witness :
    LassoSelection.init.getTilesInPolygon 0 = [] :=
  getTilesInPolygon_degenerate LassoSelection.init 0 (Or.inl rfl)

theorem bboxInv_clear (s : LassoSelection) : bboxInv s.clear := by
  simp [bboxInv, LassoSelection.clear, LassoBoundingBox.reset]

theorem bboxInv_addPoint (s : LassoSelection) (hs : bboxInv s) (x y : Int) :
    bboxInv (s.addPoint x y) := by
  obtain ⟨hhp, hbd, hat⟩ := hs
  unfold LassoSelection.addPoint
  cases hl : s.m_path.getLast? with
  | none =>
    have hnil : s.m_path = [] := List.getLast?_eq_none_iff.mp hl
    have hfp : s.m_boundingBox.hasPoints = false := by
      rcases Bool.eq_false_or_eq_true s.m_boundingBox.hasPoints with h | h
      · exact absurd (hhp.mp h) (by simp [hnil])
      · exact h
    simp only [hl, hnil]
    rw [if_neg (by simp)]
    refine ⟨by simp [LassoBoundingBox.expand, hfp], ?_, ?_⟩
    · intro p hp
      simp only [List.nil_append, List.mem_singleton] at hp
      subst hp
      simp [LassoBoundingBox.expand, hfp]
    · intro _
      refine ⟨⟨{ x := x, y := y }, by simp, ?_⟩, ⟨{ x := x, y := y }, by simp, ?_⟩,
        ⟨{ x := x, y := y }, by simp, ?_⟩, ⟨{ x := x, y := y }, by simp, ?_⟩⟩ <;>
        simp [LassoBoundingBox.expand, hfp]
  | some last =>
    have hne : s.m_path ≠ [] := by
      intro h0
      rw [h0] at hl
      simp at hl
    have htp : s.m_boundingBox.hasPoints = true := hhp.mpr hne
    simp only [hl]
    by_cases hcl :
        last.distanceSquaredTo { x := x, y := y } < s.m_minPointDistanceSquared
    · rw [if_pos (by simpa using hcl)]
      exact ⟨hhp, hbd, hat⟩
    · rw [if_neg (by simpa using hcl)]
      refine ⟨by simp [LassoBoundingBox.expand, htp], ?_, ?_⟩
      · intro p hp
        simp only [LassoBoundingBox.expand, htp, if_pos]
        rcases List.mem_append.mp hp with h | h
        · obtain ⟨h1, h2, h3, h4⟩ := hbd p h
          exact ⟨le_trans (min_le_left _ _) h1, le_trans h2 (le_max_left _ _),
            le_trans (min_le_left _ _) h3, le_trans h4 (le_max_left _ _)⟩
        · simp only [List.mem_singleton] at h
          subst h
          exact ⟨min_le_right _ _, le_max_right _ _,
            min_le_right _ _, le_max_right _ _⟩
      · intro _
        obtain ⟨⟨pa, hpa, hea⟩, ⟨pb, hpb, heb⟩, ⟨pc, hpc, hec⟩, ⟨pd, hpd, hed⟩⟩ :=
          hat hne
        simp only [LassoBoundingBox.expand, htp, if_pos]
        refine ⟨?_, ?_, ?_, ?_⟩
        · rcases min_choice s.m_boundingBox.minX x with h | h
          · exact ⟨pa, List.mem_append_left _ hpa, by rw [h, ← hea]⟩
          · exact ⟨{ x := x, y := y }, List.mem_append_right _ (by simp), by rw [h]⟩
        · rcases max_choice s.m_boundingBox.maxX x with h | h
          · exact ⟨pb, List.mem_append_left _ hpb, by rw [h, ← heb]⟩
          · exact ⟨{ x := x, y := y }, List.mem_append_right _ (by simp), by rw [h]⟩
        · rcases min_choice s.m_boundingBox.minY y with h | h
          · exact ⟨pc, List.mem_append_left _ hpc, by rw [h, ← hec]⟩
          · exact ⟨{ x := x, y := y }, List.mem_append_right _ (by simp), by rw [h]⟩
        · rcases max_choice s.m_boundingBox.maxY y with h | h
          · exact ⟨pd, List.mem_append_left _ hpd, by rw [h, ← hed]⟩
          · exact ⟨{ x := x, y := y }, List.mem_append_right _ (by simp), by rw [h]⟩

theorem bboxInv_closePath (s : LassoSelection) (hs : bboxInv s) :
    bboxInv s.closePath := by
  obtain ⟨hhp, hbd, hat⟩ := hs
  unfold LassoSelection.closePath
  split
  · exact bboxInv_clear s
  · next hlen =>
    have hne : s.m_path ≠ [] := by
      intro h0
      rw [h0] at hlen
      simp at hlen
    obtain ⟨p0, rest, hcons⟩ := List.exists_cons_of_ne_nil hne
    set p2 : List LassoPoint :=
      if s.m_path.head? = s.m_path.getLast? then s.m_path
      else s.m_path ++ [s.m_path.headD { x := 0, y := 0 }] with hp2
    have hsub : ∀ q ∈ p2, q ∈ s.m_path := by
      intro q hq
      rw [hp2] at hq
      split at hq
      · exact hq
      · rcases List.mem_append.mp hq with h | h
        · exact h
        · simp only [List.mem_singleton] at h
          subst h
          rw [hcons]
          simp
    have hne2 : p2 ≠ [] := by
      rw [hp2]
      split
      · exact hne
      · simp
    obtain ⟨hp, hbb, _, _, _, _, _⟩ := simplifyPath_eq_fields
      { s with m_path := p2, m_closed := true }
    refine ⟨?_, ?_, ?_⟩
    · rw [hp, hbb]
      constructor
      · intro _
        exact hne2
      · intro _
        exact hhp.mpr hne
    · intro p hpm
      rw [hp] at hpm
      rw [hbb]
      exact hbd p (hsub p hpm)
    · intro _
      rw [hp, hbb]
      obtain ⟨⟨pa, hpa, hea⟩, ⟨pb, hpb, heb⟩, ⟨pc, hpc, hec⟩, ⟨pd, hpd, hed⟩⟩ :=
        hat hne
      have hsup : ∀ q, q ∈ s.m_path → q ∈ p2 := by
        intro q hq
        rw [hp2]
        split
        · exact hq
        · exact List.mem_append_left _ hq
      exact ⟨⟨pa, hsup pa hpa, hea⟩, ⟨pb, hsup pb hpb, heb⟩,
        ⟨pc, hsup pc hpc, hec⟩, ⟨pd, hsup pd hpd, hed⟩⟩

/-- C8: the bounding-box invariant holds initially, is preserved by
`clear`, `addPoint` and `closePath`, and once `hasPoints` is set it gives
`minX ≤ maxX ∧ minY ≤ maxY` with all four bounds attained by path points
(the incremental `expand` maintains the smallest enclosing box). -/
theorem bbox_invariant :
    bboxInv LassoSelection.init ∧
    (∀ s, bboxInv s →
      bboxInv s.clear ∧ (∀ x y, bboxInv (s.addPoint x y)) ∧ bboxInv s.closePath) ∧
    (∀ s, bboxInv s → s.m_boundingBox.hasPoints = true →
      s.m_boundingBox.minX ≤ s.m_boundingBox.maxX ∧
      s.m_boundingBox.minY ≤ s.m_boundingBox.maxY) := by
  refine ⟨?_, ?_, ?_⟩
  · simp [bboxInv, LassoSelection.init, LassoBoundingBox.reset]
  · intro s hs
    exact ⟨bboxInv_clear s, fun x y => bboxInv_addPoint s hs x y,
      bboxInv_closePath s hs⟩
  · intro s hs hp
    obtain ⟨hhp, hbd, hat⟩ := hs
    obtain ⟨⟨pa, hpa, hea⟩, _, ⟨pc, hpc, hec⟩, _⟩ := hat (hhp.mp hp)
    obtain ⟨h1, h2, h3, h4⟩ := hbd pa hpa
    obtain ⟨g1, g2, g3, g4⟩ := hbd pc hpc
    constructor
    · rw [← hea]
      exact h2
    · rw [← hec]
      exact g4

/-- C8 witness: concrete instantiation on the initial session. -/
theorem bbox_invariant_witness :
    bboxInv (LassoSelection.init.addPoint 2 5) :=
  (bbox_invariant.2.1 LassoSelection.init bbox_invariant.1).2.1 2 5

/-- C10: the two query operations are modelled as pure functions of the
session state (the C++ methods are `const` and touch only locals), so they
cannot change any field; moreover their results depend only on the fields
they read — path, simplified path, bounding box and closed flag — and
repeated calls with equal arguments return equal results. -/
theorem queries_pure (s t : LassoSelection) (floorIdx x y : Int)
    (hp : s.m_path = t.m_path) (hsp : s.m_simplifiedPath = t.m_simplifiedPath)
    (hb : s.m_boundingBox = t.m_boundingBox) (hc : s.m_closed = t.m_closed) :
    s.getTilesInPolygon floorIdx = t.getTilesInPolygon floorIdx ∧
    s.pointInPolygon x y = t.pointInPolygon x y := by
  constructor
  · unfold LassoSelection.getTilesInPolygon LassoSelection.scanlineFillAET
      LassoSelection.queryPoly
    rw [hp, hsp, hb, hc]
  · unfold LassoSelection.pointInPolygon LassoSelection.queryPoly
    rw [hp, hsp]

/-- C10 witness: repeated queries on the square session agree. -/
theorem queries_pure_witness :
    squareSession.getTilesInPolygon 0 = squareSession.getTilesInPolygon 0 ∧
    squareSession.pointInPolygon 1 1 = squareSession.pointInPolygon 1 1 :=
  queries_pure squareSession squareSession 0 1 1 rfl rfl rfl rfl

theorem distanceSquaredTo_def (p q : LassoPoint) :
    p.distanceSquaredTo q =
      ((p.x : ℚ) - q.x) * ((p.x : ℚ) - q.x) +
        ((p.y : ℚ) - q.y) * ((p.y : ℚ) - q.y) := rfl

theorem perpDistSq_def (p a b : LassoPoint) :
    perpDistSq p a b =
      if ((b.x : ℚ) - a.x) * ((b.x : ℚ) - a.x) +
          ((b.y : ℚ) - a.y) * ((b.y : ℚ) - a.y) = 0 then
        p.distanceSquaredTo a
      else
        (((p.x : ℚ) - a.x) * ((b.y : ℚ) - a.y) -
            ((p.y : ℚ) - a.y) * ((b.x : ℚ) - a.x)) *
          (((p.x : ℚ) - a.x) * ((b.y : ℚ) - a.y) -
            ((p.y : ℚ) - a.y) * ((b.x : ℚ) - a.x)) /
          (((b.x : ℚ) - a.x) * ((b.x : ℚ) - a.x) +
            ((b.y : ℚ) - a.y) * ((b.y : ℚ) - a.y)) := rfl

theorem perpDistSq_nonneg (p a b : LassoPoint) : 0 ≤ perpDistSq p a b := by
  rw [perpDistSq_def]
  split
  · rw [distanceSquaredTo_def]
    exact add_nonneg (mul_self_nonneg _) (mul_self_nonneg _)
  · next h =>
    have hL : (0 : ℚ) < ((b.x : ℚ) - a.x) * ((b.x : ℚ) - a.x) +
        ((b.y : ℚ) - a.y) * ((b.y : ℚ) - a.y) :=
      lt_of_le_of_ne (add_nonneg (mul_self_nonneg _) (mul_self_nonneg _))
        (Ne.symm h)
    exact div_nonneg (mul_self_nonneg _) hL.le

theorem perpDistSq_left (a b : LassoPoint) : perpDistSq a a b = 0 := by
  rw [perpDistSq_def]
  split
  · rw [distanceSquaredTo_def]
    ring
  · rw [show (((a.x : ℚ) - a.x) * ((b.y : ℚ) - a.y) -
        ((a.y : ℚ) - a.y) * ((b.x : ℚ) - a.x)) = 0 from by ring]
    simp

theorem perpDistSq_right (a b : LassoPoint) : perpDistSq b a b = 0 := by
  rw [perpDistSq_def]
  split
  · next h =>
    rw [distanceSquaredTo_def]
    exact h
  · rw [show (((b.x : ℚ) - a.x) * ((b.y : ℚ) - a.y) -
        ((b.y : ℚ) - a.y) * ((b.x : ℚ) - a.x)) = 0 from by ring]
    simp

/-- Full correctness of the `maxDist`/`maxIndex` inner scan: either no
element beats the accumulator (result unchanged), or the result is the
first attainment of the maximum. -/
theorem maxScanAux_spec (points : List LassoPoint) (s e : ℕ) :
    ∀ (l : List ℕ), l.Pairwise (· < ·) → ∀ (acc : ℚ × ℕ),
      (maxScanAux points s e l acc = acc ∧
        ∀ j ∈ l, dPt points s e j ≤ acc.1) ∨
      ((maxScanAux points s e l acc).2 ∈ l ∧
        (maxScanAux points s e l acc).1 =
          dPt points s e (maxScanAux points s e l acc).2 ∧
        acc.1 < (maxScanAux points s e l acc).1 ∧
        (∀ j ∈ l, j < (maxScanAux points s e l acc).2 →
          dPt points s e j < (maxScanAux points s e l acc).1) ∧
        (∀ j ∈ l, dPt points s e j ≤ (maxScanAux points s e l acc).1)) := by
  intro l
  induction l with
  | nil =>
    intro _ acc
    exact Or.inl ⟨rfl, by simp⟩
  | cons i is ih =>
    intro hpw acc
    have hpw2 : is.Pairwise (· < ·) := (List.pairwise_cons.mp hpw).2
    have hlt : ∀ j ∈ is, i < j := (List.pairwise_cons.mp hpw).1
    have hstep0 : maxScanAux points s e (i :: is) acc =
        maxScanAux points s e is
          (if acc.1 < dPt points s e i then (dPt points s e i, i) else acc) := rfl
    by_cases hup : acc.1 < dPt points s e i
    · rw [if_pos hup] at hstep0
      have hstep : maxScanAux points s e (i :: is) acc =
          maxScanAux points s e is (dPt points s e i, i) := hstep0
      rcases ih hpw2 (dPt points s e i, i) with ⟨heq, hb⟩ | ⟨hm, hd, hl2, hfa, hb⟩
      · right
        rw [hstep, heq]
        refine ⟨List.mem_cons_self _ _, rfl, hup, ?_, ?_⟩
        · intro j hj hjlt
          rcases List.mem_cons.mp hj with rfl | hj2
          · exact absurd hjlt (lt_irrefl _)
          · exact absurd hjlt (not_lt.mpr (le_of_lt (hlt j hj2)))
        · intro j hj
          rcases List.mem_cons.mp hj with rfl | hj2
          · exact le_refl _
          · exact hb j hj2
      · right
        rw [hstep]
        refine ⟨List.mem_cons_of_mem _ hm, hd, lt_trans hup hl2, ?_, ?_⟩
        · intro j hj hjlt
          rcases List.mem_cons.mp hj with rfl | hj2
          · exact lt_of_le_of_lt (le_of_eq rfl) hl2
          · exact hfa j hj2 hjlt
        · intro j hj
          rcases List.mem_cons.mp hj with rfl | hj2
          · exact le_of_lt hl2
          · exact hb j hj2
    · rw [if_neg hup] at hstep0
      have hstep : maxScanAux points s e (i :: is) acc =
          maxScanAux points s e is acc := hstep0
      rcases ih hpw2 acc with ⟨heq, hb⟩ | ⟨hm, hd, hl2, hfa, hb⟩
      · left
        rw [hstep, heq]
        refine ⟨rfl, ?_⟩
        intro j hj
        rcases List.mem_cons.mp hj with rfl | hj2
        · exact not_lt.mp hup
        · exact hb j hj2
      · right
        rw [hstep]
        refine ⟨List.mem_cons_of_mem _ hm, hd, hl2, ?_, ?_⟩
        · intro j hj hjlt
          rcases List.mem_cons.mp hj with rfl | hj2
          · exact lt_of_le_of_lt (not_lt.mp hup) hl2
          · exact hfa j hj2 hjlt
        · intro j hj
          rcases List.mem_cons.mp hj with rfl | hj2
          · exact le_trans (not_lt.mp hup) (le_of_lt hl2)
          · exact hb j hj2

theorem mem_scanRange (s e j : ℕ) :
    j ∈ List.range' (s + 1) (e - s - 1) ↔ s < j ∧ j < e ∧ s + 1 < e := by
  rw [List.mem_range'_1]
  omega

theorem maxScan_eq_aux (points : List LassoPoint) (s e : ℕ) :
    maxScan points s e =
      maxScanAux points s e (List.range' (s + 1) (e - s - 1)) (0, s) := rfl

theorem maxScan_le (points : List LassoPoint) (s e : ℕ) :
    ∀ i, s < i → i < e → dPt points s e i ≤ (maxScan points s e).1 := by
  intro i h1 h2
  rw [maxScan_eq_aux]
  have hpw : (List.range' (s + 1) (e - s - 1)).Pairwise (· < ·) :=
    List.pairwise_lt_range' _ _ 1 (by omega)
  have hmem : i ∈ List.range' (s + 1) (e - s - 1) :=
    (mem_scanRange s e i).mpr ⟨h1, h2, by omega⟩
  rcases maxScanAux_spec points s e _ hpw (0, s) with ⟨heq, hb⟩ | h
  · rw [heq]
    exact hb i hmem
  · exact h.2.2.2.2 i hmem

theorem maxScan_nonneg (points : List LassoPoint) (s e : ℕ) :
    0 ≤ (maxScan points s e).1 := by
  rw [maxScan_eq_aux]
  have hpw : (List.range' (s + 1) (e - s - 1)).Pairwise (· < ·) :=
    List.pairwise_lt_range' _ _ 1 (by omega)
  rcases maxScanAux_spec points s e _ hpw (0, s) with ⟨heq, _⟩ | h
  · rw [heq]
  · rw [h.2.1]
    exact perpDistSq_nonneg _ _ _

theorem maxScan_pos_spec (points : List LassoPoint) (s e : ℕ)
    (h : 0 < (maxScan points s e).1) :
    s < (maxScan points s e).2 ∧ (maxScan points s e).2 < e ∧
    (maxScan points s e).1 = dPt points s e (maxScan points s e).2 ∧
    (∀ j, s < j → j < (maxScan points s e).2 →
      dPt points s e j < (maxScan points s e).1) := by
  rw [maxScan_eq_aux] at h ⊢
  have hpw : (List.range' (s + 1) (e - s - 1)).Pairwise (· < ·) :=
    List.pairwise_lt_range' _ _ 1 (by omega)
  rcases maxScanAux_spec points s e _ hpw (0, s) with ⟨heq, _⟩ | hsp
  · exfalso
    rw [heq] at h
    exact lt_irrefl 0 h
  · obtain ⟨hm, hd, _, hfa, _⟩ := hsp
    obtain ⟨hm1, hm2, _⟩ := (mem_scanRange s e _).mp hm
    refine ⟨hm1, hm2, hd, ?_⟩
    intro j hj1 hj2
    have hjm : j ∈ List.range' (s + 1) (e - s - 1) :=
      (mem_scanRange s e j).mpr ⟨hj1, by omega, by omega⟩
    exact hfa j hjm hj2

/-- Determination: if `M > 0` is attained first at `m` and bounds the scan,
the scan returns exactly `(M, m)`. -/
theorem maxScan_eq_of (points : List LassoPoint) (s e : ℕ) (M : ℚ) (m : ℕ)
    (hM : 0 < M) (hm1 : s < m) (hm2 : m < e) (hdm : dPt points s e m = M)
    (hbefore : ∀ j, s < j → j < m → dPt points s e j < M)
    (hle : ∀ j, s < j → j < e → dPt points s e j ≤ M) :
    maxScan points s e = (M, m) := by
  rw [maxScan_eq_aux]
  have hpw : (List.range' (s + 1) (e - s - 1)).Pairwise (· < ·) :=
    List.pairwise_lt_range' _ _ 1 (by omega)
  have hmm : m ∈ List.range' (s + 1) (e - s - 1) :=
    (mem_scanRange s e m).mpr ⟨hm1, hm2, by omega⟩
  rcases maxScanAux_spec points s e _ hpw (0, s) with ⟨heq, hb⟩ | hsp
  · exfalso
    have := hb m hmm
    rw [hdm] at this
    exact absurd (lt_of_lt_of_le hM this) (lt_irrefl 0)
  · obtain ⟨hmem, hd, _, hfa, hball⟩ := hsp
    obtain ⟨h1, h2, _⟩ := (mem_scanRange s e _).mp hmem
    set r := maxScanAux points s e (List.range' (s + 1) (e - s - 1)) (0, s) with hr
    have hMeq : r.1 = M := by
      have hge : M ≤ r.1 := by
        have := hball m hmm
        rw [hdm] at this
        exact this
      have hlee : r.1 ≤ M := by
        rw [hd]
        exact hle _ h1 h2
      exact le_antisymm hlee hge
    have hmeq : r.2 = m := by
      rcases lt_trichotomy r.2 m with h | h | h
      · exfalso
        have := hbefore _ h1 h
        rw [← hd, hMeq] at this
        exact lt_irrefl M this
      · exact h
      · exfalso
        have := hfa m hmm h
        rw [hMeq, ← hdm] at this
        exact lt_irrefl _ this
    have hpr : r = (r.1, r.2) := rfl
    rw [hpr, hMeq, hmeq]

/-- `rdpSimplify` never reads `keep`; it only unions its own marks in. -/
theorem rdpSimplify_eq_marks (points : List LassoPoint) (epsilon : ℚ) :
    ∀ (fuel s e : ℕ) (keep : Finset ℕ),
      rdpSimplify points epsilon fuel s e keep =
        keep ∪ rdpMarks points epsilon fuel s e := by
  intro fuel
  induction fuel with
  | zero =>
    intro s e keep
    rw [rdpSimplify, rdpMarks]
    simp
  | succ fuel ih =>
    intro s e keep
    rw [rdpSimplify, rdpMarks]
    by_cases hb : e - s < 2
    · rw [if_pos hb, if_pos hb]
      simp
    · rw [if_neg hb, if_neg hb]
      by_cases hc : epsilon < 0 ∨ epsilon ^ 2 < (maxScan points s e).1
      · rw [if_pos hc, if_pos hc, ih, ih]
        ext a
        simp only [Finset.mem_union, Finset.mem_insert]
        tauto
      · rw [if_neg hc, if_neg hc]
        simp

theorem rdpMarks_base (points : List LassoPoint) (epsilon : ℚ) (fuel s e : ℕ)
    (h : e - s < 2) : rdpMarks points epsilon fuel s e = ∅ := by
  cases fuel with
  | zero => rw [rdpMarks]
  | succ f => rw [rdpMarks, if_pos h]

/-- Every mark lies strictly inside the range (for nonnegative tolerance). -/
theorem rdpMarks_subset (points : List LassoPoint) (epsilon : ℚ)
    (hε : 0 ≤ epsilon) :
    ∀ (fuel s e : ℕ), rdpMarks points epsilon fuel s e ⊆ Finset.Ioo s e := by
  intro fuel
  induction fuel with
  | zero =>
    intro s e
    rw [rdpMarks]
    exact Finset.empty_subset _
  | succ fuel ih =>
    intro s e
    rw [rdpMarks]
    by_cases hb : e - s < 2
    · rw [if_pos hb]
      exact Finset.empty_subset _
    · rw [if_neg hb]
      by_cases hc : epsilon < 0 ∨ epsilon ^ 2 < (maxScan points s e).1
      · rw [if_pos hc]
        have hM : 0 < (maxScan points s e).1 := by
          rcases hc with hc | hc
          · exact absurd hc (not_lt.mpr hε)
          · exact lt_of_le_of_lt (sq_nonneg epsilon) hc
        obtain ⟨h1, h2, _, _⟩ := maxScan_pos_spec points s e hM
        intro a ha
        rcases Finset.mem_insert.mp ha with rfl | ha2
        · exact Finset.mem_Ioo.mpr ⟨h1, h2⟩
        · rcases Finset.mem_union.mp ha2 with h | h
          · have := ih s (maxScan points s e).2 h
            rw [Finset.mem_Ioo] at this ⊢
            omega
          · have := ih (maxScan points s e).2 e h
            rw [Finset.mem_Ioo] at this ⊢
            omega
      · rw [if_neg hc]
        exact Finset.empty_subset _

/-- The marks are independent of the fuel, once the fuel covers the range
length (for nonnegative tolerance). -/
theorem rdpMarks_fuel (points : List LassoPoint) (epsilon : ℚ)
    (hε : 0 ≤ epsilon) :
    ∀ (n fuel fuel2 s e : ℕ), e - s ≤ n → e - s ≤ fuel → e - s ≤ fuel2 →
      rdpMarks points epsilon fuel s e = rdpMarks points epsilon fuel2 s e := by
  intro n
  induction n with
  | zero =>
    intro fuel fuel2 s e hn _ _
    rw [rdpMarks_base points epsilon fuel s e (by omega),
      rdpMarks_base points epsilon fuel2 s e (by omega)]
  | succ n ihn =>
    intro fuel fuel2 s e hn h1 h2
    by_cases hb : e - s < 2
    · rw [rdpMarks_base points epsilon fuel s e hb,
        rdpMarks_base points epsilon fuel2 s e hb]
    · obtain ⟨f, rfl⟩ : ∃ f, fuel = f + 1 := ⟨fuel - 1, by omega⟩
      obtain ⟨f2, rfl⟩ : ∃ g, fuel2 = g + 1 := ⟨fuel2 - 1, by omega⟩
      rw [rdpMarks, rdpMarks, if_neg hb, if_neg hb]
      by_cases hc : epsilon < 0 ∨ epsilon ^ 2 < (maxScan points s e).1
      · rw [if_pos hc, if_pos hc]
        have hM : 0 < (maxScan points s e).1 := by
          rcases hc with hc | hc
          · exact absurd hc (not_lt.mpr hε)
          · exact lt_of_le_of_lt (sq_nonneg epsilon) hc
        obtain ⟨hm1, hm2, _, _⟩ := maxScan_pos_spec points s e hM
        rw [ihn f f2 s (maxScan points s e).2 (by omega) (by omega) (by omega),
          ihn f f2 (maxScan points s e).2 e (by omega) (by omega) (by omega)]
      · rw [if_neg hc, if_neg hc]

/-- Coverage: every in-range index is either marked, or sandwiched between
two adjacent retained indices whose chord approximates it within ε². -/
theorem rdpMarks_cover (points : List LassoPoint) (epsilon : ℚ)
    (hε : 0 ≤ epsilon) :
    ∀ (fuel s e : ℕ), e - s ≤ fuel → 2 ≤ e - s →
      ∀ i, s < i → i < e →
        i ∈ rdpMarks points epsilon fuel s e ∨
        ∃ a b, s ≤ a ∧ a < i ∧ i < b ∧ b ≤ e ∧
          (a = s ∨ a ∈ rdpMarks points epsilon fuel s e) ∧
          (b = e ∨ b ∈ rdpMarks points epsilon fuel s e) ∧
          (∀ j, a < j → j < b → j ∉ rdpMarks points epsilon fuel s e) ∧
          perpDistSq (pget points i) (pget points a) (pget points b) ≤
            epsilon ^ 2 := by
  intro fuel
  induction fuel with
  | zero =>
    intro s e h1 h2
    omega
  | succ fuel ih =>
    intro s e h1 h2 i hi1 hi2
    rw [rdpMarks, if_neg (by omega)]
    by_cases hc : epsilon < 0 ∨ epsilon ^ 2 < (maxScan points s e).1
    · rw [if_pos hc]
      have hM : 0 < (maxScan points s e).1 := by
        rcases hc with hc | hc
        · exact absurd hc (not_lt.mpr hε)
        · exact lt_of_le_of_lt (sq_nonneg epsilon) hc
      obtain ⟨hm1, hm2, _, _⟩ := maxScan_pos_spec points s e hM
      rcases lt_trichotomy i (maxScan points s e).2 with him | heq | hmi
      · rcases ih s (maxScan points s e).2 (by omega) (by omega) i hi1 him with
          hL | ⟨a, b, ha1, ha2, hb1, hb2, haK, hbK, hgap, hd⟩
        · exact Or.inl (Finset.mem_insert_of_mem (Finset.mem_union_left _ hL))
        · right
          refine ⟨a, b, ha1, ha2, hb1, le_trans hb2 (le_of_lt hm2), ?_, ?_, ?_, hd⟩
          · rcases haK with rfl | haK
            · exact Or.inl rfl
            · exact Or.inr
                (Finset.mem_insert_of_mem (Finset.mem_union_left _ haK))
          · rcases hbK with rfl | hbK
            · exact Or.inr (Finset.mem_insert_self _ _)
            · exact Or.inr
                (Finset.mem_insert_of_mem (Finset.mem_union_left _ hbK))
          · intro j hj1 hj2 hjK
            rcases Finset.mem_insert.mp hjK with rfl | hjK2
            · omega
            · rcases Finset.mem_union.mp hjK2 with h | h
              · exact hgap j hj1 hj2 h
              · have := rdpMarks_subset points epsilon hε fuel
                  (maxScan points s e).2 e h
                rw [Finset.mem_Ioo] at this
                omega
      · exact Or.inl (heq ▸ Finset.mem_insert_self _ _)
      · rcases ih (maxScan points s e).2 e (by omega) (by omega) i hmi hi2 with
          hL | ⟨a, b, ha1, ha2, hb1, hb2, haK, hbK, hgap, hd⟩
        · exact Or.inl (Finset.mem_insert_of_mem (Finset.mem_union_right _ hL))
        · right
          refine ⟨a, b, le_trans (le_of_lt hm1) ha1, ha2, hb1, hb2, ?_, ?_, ?_, hd⟩
          · rcases haK with rfl | haK
            · exact Or.inr (Finset.mem_insert_self _ _)
            · exact Or.inr
                (Finset.mem_insert_of_mem (Finset.mem_union_right _ haK))
          · rcases hbK with rfl | hbK
            · exact Or.inl rfl
            · exact Or.inr
                (Finset.mem_insert_of_mem (Finset.mem_union_right _ hbK))
          · intro j hj1 hj2 hjK
            rcases Finset.mem_insert.mp hjK with rfl | hjK2
            · omega
            · rcases Finset.mem_union.mp hjK2 with h | h
              · have := rdpMarks_subset points epsilon hε fuel
                  s (maxScan points s e).2 h
                rw [Finset.mem_Ioo] at this
                omega
              · exact hgap j hj1 hj2 h
    · rw [if_neg hc]
      right
      push_neg at hc
      refine ⟨s, e, le_refl s, hi1, hi2, le_refl e, Or.inl rfl, Or.inl rfl,
        by simp, ?_⟩
      exact le_trans (maxScan_le points s e i hi1 hi2) hc.2

theorem keepList_sorted (n : ℕ) (K : Finset ℕ) :
    ((List.range n).filter (fun j => decide (j ∈ K))).Sorted (· < ·) :=
  (List.pairwise_lt_range n).filter _

theorem mem_keepList (n : ℕ) (K : Finset ℕ) (i : ℕ) :
    i ∈ (List.range n).filter (fun j => decide (j ∈ K)) ↔ i < n ∧ i ∈ K := by
  simp [List.mem_filter]

/-- In a strictly sorted list, two members with nothing in between form an
adjacent pair. -/
theorem consec_mem_zip_tail :
    ∀ (l : List ℕ), l.Sorted (· < ·) →
      ∀ a b, a ∈ l → b ∈ l → a < b → (∀ c ∈ l, ¬(a < c ∧ c < b)) →
        (a, b) ∈ l.zip l.tail := by
  intro l
  induction l with
  | nil =>
    intro _ a b ha
    cases ha
  | cons x xs ih =>
    intro hs a b ha hb hab hgap
    have hsx : ∀ y ∈ xs, x < y := (List.sorted_cons.mp hs).1
    have hsxs : xs.Sorted (· < ·) := (List.sorted_cons.mp hs).2
    rcases List.mem_cons.mp ha with rfl | ha2
    · have hbx : b ∈ xs := by
        rcases List.mem_cons.mp hb with rfl | h
        · omega
        · exact h
      cases xs with
      | nil => cases hbx
      | cons y ys =>
        have hy : y = b := by
          rcases List.mem_cons.mp hbx with h | hbys
          · exact h.symm
          · exfalso
            have h1 : a < y := hsx y (List.mem_cons_self _ _)
            have h2 : y < b := (List.sorted_cons.mp hsxs).1 b hbys
            exact hgap y (List.mem_cons_of_mem _ (List.mem_cons_self _ _))
              ⟨h1, h2⟩
        subst hy
        exact List.mem_cons_self _ _
    · have hbx : b ∈ xs := by
        rcases List.mem_cons.mp hb with rfl | h
        · exfalso
          have := hsx a ha2
          omega
        · exact h
      cases xs with
      | nil => cases ha2
      | cons y ys =>
        exact List.mem_cons_of_mem _
          (ih hsxs a b ha2 hbx hab
            (fun c hc => hgap c (List.mem_cons_of_mem _ hc)))

theorem zip_tail_map (f : ℕ → LassoPoint) :
    ∀ (l : List ℕ),
      (l.map f).zip (l.map f).tail =
        (l.zip l.tail).map (fun pr => (f pr.1, f pr.2)) := by
  intro l
  induction l with
  | nil => rfl
  | cons x xs ih =>
    cases xs with
    | nil => rfl
    | cons y ys =>
      simp only [List.map_cons, List.tail_cons, List.zip_cons_cons,
        List.map_cons] at ih ⊢
      rw [← ih]

/-- Every member of a list with at least two entries is an endpoint of some
adjacent pair. -/
theorem elem_adjacent {α : Type} :
    ∀ (l : List α), 2 ≤ l.length → ∀ a, a ∈ l →
      (∃ pr ∈ l.zip l.tail, pr.1 = a) ∨ (∃ pr ∈ l.zip l.tail, pr.2 = a) := by
  intro l
  induction l with
  | nil =>
    intro h
    simp at h
  | cons x xs ih =>
    intro hlen a ha
    cases xs with
    | nil => simp at hlen
    | cons y ys =>
      rcases List.mem_cons.mp ha with rfl | ha2
      · exact Or.inl ⟨(a, y), List.mem_cons_self _ _, rfl⟩
      · cases ys with
        | nil =>
          have : a = y := by simpa using ha2
          subst this
          exact Or.inr ⟨(x, a), List.mem_cons_self _ _, rfl⟩
        | cons z zs =>
          rcases ih (by simp) a ha2 with ⟨pr, hm, he⟩ | ⟨pr, hm, he⟩
          · exact Or.inl ⟨pr, List.mem_cons_of_mem _ hm, he⟩
          · exact Or.inr ⟨pr, List.mem_cons_of_mem _ hm, he⟩

theorem head?_eq_pget (l : List LassoPoint) (h : l ≠ []) :
    l.head? = some (pget l 0) := by
  cases l with
  | nil => exact absurd rfl h
  | cons x xs => rfl

theorem getLast?_eq_pget :
    ∀ (l : List LassoPoint), l ≠ [] →
      l.getLast? = some (pget l (l.length - 1)) := by
  intro l
  induction l with
  | nil => intro h; exact absurd rfl h
  | cons x xs ih =>
    intro _
    cases xs with
    | nil => rfl
    | cons y ys =>
      rw [List.getLast?_cons_cons, ih (by simp)]
      rfl

theorem keepList_head (n : ℕ) (K : Finset ℕ) (hn : 0 < n) (h0 : 0 ∈ K) :
    ∃ t, (List.range n).filter (fun j => decide (j ∈ K)) = 0 :: t := by
  obtain ⟨m, rfl⟩ : ∃ m, n = m + 1 := ⟨n - 1, by omega⟩
  rw [List.range_succ_eq_map, List.filter_cons]
  rw [if_pos (by simpa using h0)]
  exact ⟨_, rfl⟩

theorem keepList_getLast (n : ℕ) (K : Finset ℕ) (hn : 0 < n)
    (hl : n - 1 ∈ K) :
    ((List.range n).filter (fun j => decide (j ∈ K))).getLast? =
      some (n - 1) := by
  obtain ⟨m, rfl⟩ : ∃ m, n = m + 1 := ⟨n - 1, by omega⟩
  rw [List.range_succ, List.filter_append]
  simp only [List.filter_cons, List.filter_nil]
  rw [if_pos (by simpa using hl)]
  simp [List.getLast?_concat]

/-- C5: after `simplifyPath` on a raw path with at least 3 points and
nonnegative tolerance ε (default 0.5), the first and last raw points are
retained as the first and last simplified points, and every raw point lies
within ε of some segment of the simplified polyline — stated with squared
distances (`perpDistSq ≤ ε²`), which for the exact reals is equivalent to
`perpendicularDistance ≤ ε`; zero-length chords fall back to direct
point-to-point distance inside `perpDistSq` exactly as the code does. -/
theorem simplifyPath_guarantee (s : LassoSelection)
    (hlen : 3 ≤ s.m_path.length) (hε : 0 ≤ s.m_simplifyTolerance) :
    s.simplifyPath.m_simplifiedPath.head? = s.m_path.head? ∧
    s.simplifyPath.m_simplifiedPath.getLast? = s.m_path.getLast? ∧
    ∀ i < s.m_path.length,
      ∃ pr ∈ s.simplifyPath.m_simplifiedPath.zip
          s.simplifyPath.m_simplifiedPath.tail,
        perpDistSq (pget s.m_path i) pr.1 pr.2 ≤ s.m_simplifyTolerance ^ 2 := by
  have hne : s.m_path ≠ [] := by
    intro h
    rw [h] at hlen
    simp at hlen
  set p := s.m_path with hp
  set ε := s.m_simplifyTolerance with he
  set n := p.length with hn
  set K : Finset ℕ := rdpSimplify p ε n 0 (n - 1) (insert 0 {n - 1}) with hKdef
  have hsp : s.simplifyPath.m_simplifiedPath =
      ((List.range n).filter (fun j => decide (j ∈ K))).map (pget p) := by
    unfold LassoSelection.simplifyPath
    rw [if_neg (by have h3 : 3 ≤ s.m_path.length := hlen; omega)]
  have hKeq : K = insert 0 {n - 1} ∪ rdpMarks p ε n 0 (n - 1) :=
    rdpSimplify_eq_marks p ε n 0 (n - 1) _
  have h0K : 0 ∈ K := by
    rw [hKeq]
    simp
  have hlastK : n - 1 ∈ K := by
    rw [hKeq]
    simp
  have hmarksK : rdpMarks p ε n 0 (n - 1) ⊆ K := by
    rw [hKeq]
    exact Finset.subset_union_right
  have hmarksIoo := rdpMarks_subset p ε hε n 0 (n - 1)
  set kl := (List.range n).filter (fun j => decide (j ∈ K)) with hkl
  have hklS : kl.Sorted (· < ·) := keepList_sorted n K
  obtain ⟨t, ht⟩ := keepList_head n K (by omega) h0K
  rw [← hkl] at ht
  have hklLast : kl.getLast? = some (n - 1) :=
    keepList_getLast n K (by omega) hlastK
  have hkl2 : 2 ≤ kl.length := by
    have hlmem : n - 1 ∈ kl := (mem_keepList n K _).mpr ⟨by omega, hlastK⟩
    rw [ht] at hlmem ⊢
    rcases List.mem_cons.mp hlmem with h | h
    · omega
    · cases t with
      | nil => cases h
      | cons u us => simp
  have hhead : s.simplifyPath.m_simplifiedPath.head? = p.head? := by
    rw [hsp, ht, head?_eq_pget p hne]
    rfl
  have hlast : s.simplifyPath.m_simplifiedPath.getLast? = p.getLast? := by
    rw [hsp, getLast?_eq_pget p hne, List.getLast?_map, hklLast]
    rfl
  refine ⟨hhead, hlast, ?_⟩
  intro i hi
  by_cases hiK : i ∈ K
  · have himem : pget p i ∈ s.simplifyPath.m_simplifiedPath := by
      rw [hsp]
      exact List.mem_map_of_mem _ ((mem_keepList n K i).mpr ⟨hi, hiK⟩)
    have hlen2 : 2 ≤ s.simplifyPath.m_simplifiedPath.length := by
      rw [hsp, List.length_map]
      exact hkl2
    rcases elem_adjacent _ hlen2 _ himem with ⟨pr, hm, hpr⟩ | ⟨pr, hm, hpr⟩
    · refine ⟨pr, hm, ?_⟩
      rw [← hpr, perpDistSq_left]
      exact sq_nonneg ε
    · refine ⟨pr, hm, ?_⟩
      rw [← hpr, perpDistSq_right]
      exact sq_nonneg ε
  · have hi0 : 0 < i := by
      rcases Nat.eq_zero_or_pos i with rfl | h
      · exact absurd h0K hiK
      · exact h
    have hin1 : i < n - 1 := by
      rcases lt_or_ge i (n - 1) with h | h
      · exact h
      · exfalso
        have hieq : i = n - 1 := by omega
        rw [hieq] at hiK
        exact absurd hlastK hiK
    rcases rdpMarks_cover p ε hε n 0 (n - 1) (by omega) (by omega) i hi0 hin1
      with hL | ⟨a, b, ha1, ha2, hb1, hb2, haK, hbK, hgap, hd⟩
    · exact absurd (hmarksK hL) hiK
    · have haK2 : a ∈ K := by
        rcases haK with rfl | h
        · exact h0K
        · exact hmarksK h
      have hbK2 : b ∈ K := by
        rcases hbK with rfl | h
        · exact hlastK
        · exact hmarksK h
      have hamem : a ∈ kl := (mem_keepList n K a).mpr ⟨by omega, haK2⟩
      have hbmem : b ∈ kl := (mem_keepList n K b).mpr ⟨by omega, hbK2⟩
      have hgapK : ∀ c ∈ kl, ¬(a < c ∧ c < b) := by
        intro c hc hcc
        have hcK : c ∈ K := ((mem_keepList n K c).mp hc).2
        rw [hKeq] at hcK
        rcases Finset.mem_union.mp hcK with h | h
        · simp only [Finset.mem_insert, Finset.mem_singleton] at h
          omega
        · exact hgap c hcc.1 hcc.2 h
      have hzip := consec_mem_zip_tail kl hklS a b hamem hbmem (by omega) hgapK
      refine ⟨(pget p a, pget p b), ?_, hd⟩
      rw [hsp, zip_tail_map]
      exact List.mem_map_of_mem _ hzip

/-- C5 witness: concrete instantiation on a 3-point session. -/
theorem simplifyPath_guarantee_witness :
    demoSession.simplifyPath.m_simplifiedPath.head? = demoSession.m_path.head? :=
  (simplifyPath_guarantee demoSession (by decide)
    (by with_unfolding_all decide)).1

theorem rdpMarks_step (points : List LassoPoint) (epsilon : ℚ) (g s e : ℕ)
    (h2 : 2 ≤ e - s)
    (hc : epsilon < 0 ∨ epsilon ^ 2 < (maxScan points s e).1) :
    rdpMarks points epsilon (g + 1) s e =
      insert (maxScan points s e).2
        (rdpMarks points epsilon g s (maxScan points s e).2 ∪
          rdpMarks points epsilon g (maxScan points s e).2 e) := by
  rw [rdpMarks, if_neg (by omega), if_pos hc]

/-- Alignment: running RDP on the retained sublist `q` (whose `j`-th entry
is `p`'s entry at index `getv j`) marks every interior index, because each
split of `p`'s recursion happens at a retained point and reproduces itself
on `q`, and every leaf range of `p` becomes an adjacent pair in `q`. -/
theorem rdpMarks_align (p : List LassoPoint) (ε : ℚ) (hε : 0 ≤ ε)
    (K : Finset ℕ) (q : List LassoPoint) (getv : ℕ → ℕ) (len : ℕ)
    (hmono : ∀ j j2, j < j2 → j2 < len → getv j < getv j2)
    (hKmem : ∀ j, j < len → getv j ∈ K)
    (hsurj : ∀ v, v ∈ K → ∃ j, j < len ∧ getv j = v)
    (hqget : ∀ j, j < len → pget q j = pget p (getv j)) :
    ∀ d σ η, σ < η → η < len → getv η - getv σ ≤ d →
      (∀ v, v ∈ K → getv σ < v → v < getv η →
        v ∈ rdpMarks p ε (getv η - getv σ) (getv σ) (getv η)) →
      (∀ v, v ∈ rdpMarks p ε (getv η - getv σ) (getv σ) (getv η) → v ∈ K) →
      ∀ fuelq, η - σ ≤ fuelq →
        rdpMarks q ε fuelq σ η = Finset.Ioo σ η := by
  intro d
  induction d with
  | zero =>
    intro σ η hση hηlen hd _ _ _ _
    exfalso
    have := hmono σ η hση hηlen
    omega
  | succ d ih =>
    intro σ η hση hηlen hd hKsub hsubK fuelq hfq
    have hab : getv σ < getv η := hmono σ η hση hηlen
    by_cases hadj : η = σ + 1
    · subst hadj
      rw [rdpMarks_base q ε fuelq σ (σ + 1) (by omega)]
      ext c
      simp only [Finset.not_mem_empty, Finset.mem_Ioo, false_iff]
      omega
    · have hσ1 : σ + 1 < η := by omega
      have hmid1 : getv σ < getv (σ + 1) := hmono σ (σ + 1) (by omega) (by omega)
      have hmid2 : getv (σ + 1) < getv η := hmono (σ + 1) η hσ1 hηlen
      have hba2 : 2 ≤ getv η - getv σ := by omega
      obtain ⟨f, hf⟩ : ∃ f, getv η - getv σ = f + 1 :=
        ⟨getv η - getv σ - 1, by omega⟩
      simp only [hf, rdpMarks] at hKsub hsubK
      rw [if_neg (show ¬(f + 1 < 2) from by omega)] at hKsub hsubK
      by_cases hcond : ε < 0 ∨ ε ^ 2 < (maxScan p (getv σ) (getv η)).1
      · rw [if_pos hcond] at hKsub hsubK
        have hM : 0 < (maxScan p (getv σ) (getv η)).1 := by
          rcases hcond with h | h
          · exact absurd h (not_lt.mpr hε)
          · exact lt_of_le_of_lt (sq_nonneg ε) h
        obtain ⟨hmp1, hmp2, hmd, hfa⟩ := maxScan_pos_spec p (getv σ) (getv η) hM
        have hmpK : (maxScan p (getv σ) (getv η)).2 ∈ K :=
          hsubK _ (Finset.mem_insert_self _ _)
        obtain ⟨μ, hμlen, hμeq⟩ := hsurj _ hmpK
        have hσμ : σ < μ := by
          rcases lt_trichotomy σ μ with h | h | h
          · exact h
          · exfalso
            rw [← h] at hμeq
            omega
          · exfalso
            have := hmono μ σ h (by omega)
            omega
        have hμη : μ < η := by
          rcases lt_trichotomy μ η with h | h | h
          · exact h
          · exfalso
            rw [h] at hμeq
            omega
          · exfalso
            have := hmono η μ h hμlen
            omega
        have hdq : ∀ j, σ < j → j < η →
            dPt q σ η j = dPt p (getv σ) (getv η) (getv j) := by
          intro j h1 h2
          unfold dPt
          rw [hqget j (by omega), hqget σ (by omega), hqget η (by omega)]
        have hmsq : maxScan q σ η = ((maxScan p (getv σ) (getv η)).1, μ) := by
          apply maxScan_eq_of q σ η _ μ hM hσμ hμη
          · rw [hdq μ hσμ hμη, hμeq]
            exact hmd.symm
          · intro j h1 h2
            rw [hdq j h1 (by omega)]
            have hjμ : getv j < (maxScan p (getv σ) (getv η)).2 := by
              rw [← hμeq]
              exact hmono j μ h2 hμlen
            exact hfa (getv j) (hmono σ j h1 (by omega)) hjμ
          · intro j h1 h2
            rw [hdq j h1 h2]
            exact maxScan_le p (getv σ) (getv η) (getv j)
              (hmono σ j h1 (by omega)) (hmono j η h2 hηlen)
        have hcondq : ε < 0 ∨ ε ^ 2 < (maxScan q σ η).1 := by
          rw [hmsq]
          exact hcond
        obtain ⟨g, hg⟩ : ∃ g, fuelq = g + 1 := ⟨fuelq - 1, by omega⟩
        subst hg
        rw [rdpMarks_step q ε g σ η (by omega) hcondq]
        have hms2 : (maxScan q σ η).2 = μ := by rw [hmsq]
        rw [hms2]
        have hLmark : ∀ v,
            v ∈ rdpMarks p ε f (getv σ) (maxScan p (getv σ) (getv η)).2 →
            v ∈ Finset.Ioo (getv σ) (maxScan p (getv σ) (getv η)).2 :=
          fun v hv => rdpMarks_subset p ε hε f _ _ hv
        have hRmark : ∀ v,
            v ∈ rdpMarks p ε f (maxScan p (getv σ) (getv η)).2 (getv η) →
            v ∈ Finset.Ioo (maxScan p (getv σ) (getv η)).2 (getv η) :=
          fun v hv => rdpMarks_subset p ε hε f _ _ hv
        have hfuelL : rdpMarks p ε f (getv σ) (maxScan p (getv σ) (getv η)).2 =
            rdpMarks p ε (getv μ - getv σ) (getv σ) (getv μ) := by
          rw [hμeq]
          exact rdpMarks_fuel p ε hε f f
            ((maxScan p (getv σ) (getv η)).2 - getv σ) (getv σ) _
            (by omega) (by omega) (by omega)
        have hfuelR : rdpMarks p ε f (maxScan p (getv σ) (getv η)).2 (getv η) =
            rdpMarks p ε (getv η - getv μ) (getv μ) (getv η) := by
          rw [hμeq]
          exact rdpMarks_fuel p ε hε f f
            (getv η - (maxScan p (getv σ) (getv η)).2) _ (getv η)
            (by omega) (by omega) (by omega)
        have hL := ih σ μ hσμ (by omega) (by omega)
          (by
            intro v hv h1 h2
            rw [← hfuelL]
            have h2p : v < (maxScan p (getv σ) (getv η)).2 := by
              rw [← hμeq]
              exact h2
            have hvb : v < getv η := lt_trans h2p hmp2
            have hvm := hKsub v hv h1 hvb
            rcases Finset.mem_insert.mp hvm with h | h
            · omega
            · rcases Finset.mem_union.mp h with h | h
              · exact h
              · exfalso
                have := hRmark v h
                rw [Finset.mem_Ioo] at this
                omega)
          (by
            intro v hv
            rw [← hfuelL] at hv
            exact hsubK v
              (Finset.mem_insert_of_mem (Finset.mem_union_left _ hv)))
          g (by omega)
        have hR := ih μ η hμη hηlen (by omega)
          (by
            intro v hv h1 h2
            rw [← hfuelR]
            have h1p : (maxScan p (getv σ) (getv η)).2 < v := by
              rw [← hμeq]
              exact h1
            have hva : getv σ < v := lt_trans hmp1 h1p
            have hvm := hKsub v hv hva h2
            rcases Finset.mem_insert.mp hvm with h | h
            · omega
            · rcases Finset.mem_union.mp h with h | h
              · exfalso
                have := hLmark v h
                rw [Finset.mem_Ioo] at this
                omega
              · exact h)
          (by
            intro v hv
            rw [← hfuelR] at hv
            exact hsubK v
              (Finset.mem_insert_of_mem (Finset.mem_union_right _ hv)))
          g (by omega)
        rw [hL, hR]
        ext c
        simp only [Finset.mem_insert, Finset.mem_union, Finset.mem_Ioo]
        omega
      · rw [if_neg hcond] at hKsub
        exfalso
        have hmidK := hKsub _ (hKmem (σ + 1) (by omega)) hmid1 hmid2
        exact Finset.not_mem_empty _ hmidK

theorem getD_getLast? {α : Type} :
    ∀ (l : List α) (d : α), l ≠ [] →
      l.getLast? = some (l.getD (l.length - 1) d) := by
  intro l
  induction l with
  | nil =>
    intro d h
    exact absurd rfl h
  | cons x xs ih =>
    intro d _
    cases xs with
    | nil => rfl
    | cons y ys =>
      rw [List.getLast?_cons_cons, ih d (by simp)]
      rfl

theorem sorted_getD_mono (l : List ℕ) (hs : l.Sorted (· < ·)) :
    ∀ j j2, j < j2 → j2 < l.length → l.getD j 0 < l.getD j2 0 := by
  intro j j2 h1 h2
  have hj : j < l.length := by omega
  rw [List.getD_eq_getElem l 0 hj, List.getD_eq_getElem l 0 h2]
  have := hs.get_strictMono
    (show (⟨j, hj⟩ : Fin l.length) < ⟨j2, h2⟩ from h1)
  simpa [List.get_eq_getElem] using this

theorem getD_mem (l : List ℕ) (j : ℕ) (h : j < l.length) : l.getD j 0 ∈ l := by
  rw [List.getD_eq_getElem l 0 h]
  exact List.getElem_mem h

theorem mem_getD (l : List ℕ) (v : ℕ) (h : v ∈ l) :
    ∃ j, j < l.length ∧ l.getD j 0 = v := by
  obtain ⟨⟨j, hj⟩, he⟩ := List.mem_iff_get.mp h
  refine ⟨j, hj, ?_⟩
  rw [List.getD_eq_getElem l 0 hj, ← List.get_eq_getElem l ⟨j, hj⟩]
  exact he

theorem pget_map_getD (p : List LassoPoint) (kl : List ℕ) (j : ℕ)
    (h : j < kl.length) :
    pget (kl.map (pget p)) j = pget p (kl.getD j 0) := by
  unfold pget
  rw [List.getD_eq_getElem _ _ (by simpa using h), List.getElem_map,
    List.getD_eq_getElem _ _ h]

theorem map_pget_range :
    ∀ (l : List LassoPoint), (List.range l.length).map (pget l) = l := by
  intro l
  induction l with
  | nil => rfl
  | cons x xs ih =>
    have hfun : (pget (x :: xs) ∘ Nat.succ) = pget xs := by
      funext k
      rfl
    rw [List.length_cons, List.range_succ_eq_map, List.map_cons, List.map_map,
      hfun, ih]
    rfl

theorem simplifyPath_short (s : LassoSelection) (h : s.m_path.length < 3) :
    s.simplifyPath.m_simplifiedPath = s.m_path := by
  unfold LassoSelection.simplifyPath
  rw [if_pos h]

theorem simplifyPath_long (s : LassoSelection) (h : ¬s.m_path.length < 3) :
    s.simplifyPath.m_simplifiedPath =
      ((List.range s.m_path.length).filter (fun j => decide (j ∈
        rdpSimplify s.m_path s.m_simplifyTolerance s.m_path.length 0
          (s.m_path.length - 1) (insert 0 {s.m_path.length - 1})))).map
        (pget s.m_path) := by
  unfold LassoSelection.simplifyPath
  rw [if_neg h]

/-- Core of idempotence: the retained sublist of a simplification run is a
fixed point of the simplification, at the same (nonnegative) tolerance. -/
theorem simplify_output_stable (p : List LassoPoint) (ε : ℚ) (hε : 0 ≤ ε)
    (hlen : 3 ≤ p.length) (q : List LassoPoint)
    (hq : q = ((List.range p.length).filter (fun j => decide (j ∈
        rdpSimplify p ε p.length 0 (p.length - 1)
          (insert 0 {p.length - 1})))).map (pget p))
    (hq3 : 3 ≤ q.length) :
    ((List.range q.length).filter (fun j => decide (j ∈
        rdpSimplify q ε q.length 0 (q.length - 1)
          (insert 0 {q.length - 1})))).map (pget q) = q := by
  set n := p.length with hn
  set K : Finset ℕ := rdpSimplify p ε n 0 (n - 1) (insert 0 {n - 1}) with hKdef
  have hKeq : K = insert 0 {n - 1} ∪ rdpMarks p ε n 0 (n - 1) :=
    rdpSimplify_eq_marks p ε n 0 (n - 1) _
  have h0K : 0 ∈ K := by
    rw [hKeq]
    simp
  have hlastK : n - 1 ∈ K := by
    rw [hKeq]
    simp
  have hmarksIoo := rdpMarks_subset p ε hε n 0 (n - 1)
  have hKlt : ∀ j ∈ K, j < n := by
    intro j hj
    rw [hKeq] at hj
    rcases Finset.mem_union.mp hj with hj | hj
    · simp only [Finset.mem_insert, Finset.mem_singleton] at hj
      omega
    · have := hmarksIoo hj
      rw [Finset.mem_Ioo] at this
      omega
  set kl := (List.range n).filter (fun j => decide (j ∈ K)) with hkl
  have hklS : kl.Sorted (· < ·) := keepList_sorted n K
  obtain ⟨t, ht⟩ := keepList_head n K (by omega) h0K
  rw [← hkl] at ht
  have hklLast : kl.getLast? = some (n - 1) :=
    keepList_getLast n K (by omega) hlastK
  have hqkl : q = kl.map (pget p) := hq
  have hqlen : q.length = kl.length := by
    rw [hqkl, List.length_map]
  have hklne : kl ≠ [] := by
    intro h0
    rw [h0] at ht
    cases ht
  have hg0 : kl.getD 0 0 = 0 := by
    rw [ht]
    rfl
  have hgl : kl.getD (kl.length - 1) 0 = n - 1 :=
    Option.some.inj ((getD_getLast? kl 0 hklne).symm.trans hklLast)
  have hmono : ∀ j j2, j < j2 → j2 < kl.length →
      kl.getD j 0 < kl.getD j2 0 := sorted_getD_mono kl hklS
  have hKmem : ∀ j, j < kl.length → kl.getD j 0 ∈ K := by
    intro j hj
    exact ((mem_keepList n K _).mp (getD_mem kl j hj)).2
  have hsurj : ∀ v, v ∈ K → ∃ j, j < kl.length ∧ kl.getD j 0 = v := by
    intro v hv
    exact mem_getD kl v ((mem_keepList n K v).mpr ⟨hKlt v hv, hv⟩)
  have hqget : ∀ j, j < kl.length → pget q j = pget p (kl.getD j 0) := by
    intro j hj
    rw [hqkl]
    exact pget_map_getD p kl j hj
  have hlen2 : 3 ≤ kl.length := by omega
  have halign := rdpMarks_align p ε hε K q (fun j => kl.getD j 0) kl.length
    hmono hKmem hsurj hqget n 0 (kl.length - 1) (by omega) (by omega)
    (by
      simp only [hg0, hgl]
      omega)
    (by
      intro v hv h1 h2
      simp only [hg0, hgl] at h1 h2 ⊢
      rw [hKeq] at hv
      rcases Finset.mem_union.mp hv with h | h
      · simp only [Finset.mem_insert, Finset.mem_singleton] at h
        omega
      · rw [rdpMarks_fuel p ε hε n n (n - 1 - 0) 0 (n - 1) (by omega)
          (by omega) (by omega)] at h
        exact h)
    (by
      intro v hv
      simp only [hg0, hgl] at hv
      rw [hKeq]
      apply Finset.mem_union_right
      rw [rdpMarks_fuel p ε hε n n (n - 1 - 0) 0 (n - 1) (by omega)
        (by omega) (by omega)]
      exact hv)
    q.length (by omega)
  set Kq : Finset ℕ := rdpSimplify q ε q.length 0 (q.length - 1)
    (insert 0 {q.length - 1}) with hKqdef
  have hKqeq : Kq = insert 0 {q.length - 1} ∪
      rdpMarks q ε q.length 0 (q.length - 1) :=
    rdpSimplify_eq_marks q ε q.length 0 (q.length - 1) _
  have hallKq : ∀ j, j < q.length → j ∈ Kq := by
    intro j hj
    rw [hKqeq]
    rcases Nat.eq_zero_or_pos j with rfl | hj0
    · exact Finset.mem_union_left _ (Finset.mem_insert_self _ _)
    · by_cases hjl : j = q.length - 1
      · subst hjl
        exact Finset.mem_union_left _
          (Finset.mem_insert_of_mem (Finset.mem_singleton_self _))
      · apply Finset.mem_union_right
        have hIoo : j ∈ Finset.Ioo 0 (kl.length - 1) := by
          rw [Finset.mem_Ioo]
          omega
        rw [← halign] at hIoo
        rw [show q.length - 1 = kl.length - 1 from by omega]
        exact hIoo
  have hfilter : (List.range q.length).filter (fun j => decide (j ∈ Kq)) =
      List.range q.length := by
    apply List.filter_eq_self.mpr
    intro a ha
    simp only [decide_eq_true_eq]
    exact hallKq a (List.mem_range.mp ha)
  rw [hfilter]
  exact map_pget_range q

/-- C9: simplification is idempotent: running `simplifyPath` on a session
whose raw path is the previous run's simplified output, with the same
(nonnegative; default 0.5) tolerance, reproduces that path unchanged. -/
theorem simplifyPath_idempotent (s : LassoSelection)
    (hε : 0 ≤ s.m_simplifyTolerance) :
    (LassoSelection.simplifyPath
      { s with m_path := s.simplifyPath.m_simplifiedPath }).m_simplifiedPath =
    s.simplifyPath.m_simplifiedPath := by
  by_cases hq3 : s.simplifyPath.m_simplifiedPath.length < 3
  · exact simplifyPath_short { s with m_path := s.simplifyPath.m_simplifiedPath }
      hq3
  · have houter := simplifyPath_long
      { s with m_path := s.simplifyPath.m_simplifiedPath } hq3
    rw [houter]
    by_cases hlen : s.m_path.length < 3
    · exfalso
      have hqeq : s.simplifyPath.m_simplifiedPath = s.m_path :=
        simplifyPath_short s hlen
      rw [hqeq] at hq3
      exact hq3 hlen
    · exact simplify_output_stable s.m_path s.m_simplifyTolerance hε
        (by omega) s.simplifyPath.m_simplifiedPath (simplifyPath_long s hlen)
        (by omega)

/-- C9 witness: a concrete instantiation. -/
theorem simplifyPath_idempotent_witness :
    (LassoSelection.simplifyPath
      { demoSession with
        m_path := demoSession.simplifyPath.m_simplifiedPath }).m_simplifiedPath =
    demoSession.simplifyPath.m_simplifiedPath :=
  simplifyPath_idempotent demoSession (by with_unfolding_all decide)

theorem foldl_toggle (cond : ℕ → Bool) :
    ∀ (l : List ℕ) (b : Bool),
      l.foldl (fun inside i => if cond i then !inside else inside) b =
        Bool.xor b (decide (l.countP cond % 2 = 1)) := by
  intro l
  induction l with
  | nil =>
    intro b
    simp
  | cons i is ih =>
    intro b
    rw [List.foldl_cons, List.countP_cons]
    by_cases h : cond i = true
    · rw [if_pos h, ih]
      rcases Nat.mod_two_eq_zero_or_one (is.countP cond) with hm | hm
      · have h1 : (is.countP cond + 1) % 2 = 1 := by omega
        simp [h, hm, h1]
      · have h1 : (is.countP cond + 1) % 2 = 0 := by omega
        simp [h, hm, h1]
    · rw [if_neg h, ih]
      simp [h]

theorem countP_bne_parity (f g : ℕ → Bool) :
    ∀ (l : List ℕ),
      (l.countP (fun i => f i != g i) + l.countP f + l.countP g) % 2 = 0 := by
  intro l
  induction l with
  | nil => rfl
  | cons i is ih =>
    rw [List.countP_cons, List.countP_cons, List.countP_cons]
    rcases Bool.eq_false_or_eq_true (f i) with hf | hf <;>
      rcases Bool.eq_false_or_eq_true (g i) with hg | hg <;>
        simp only [hf, hg] <;> simp <;> omega

theorem map_pipPrev_perm (len : ℕ) (h : 0 < len) :
    ((List.range len).map (pipPrev len)).Perm (List.range len) := by
  obtain ⟨m, rfl⟩ : ∃ m, len = m + 1 := ⟨len - 1, by omega⟩
  have h0 : pipPrev (m + 1) 0 = m := by simp [pipPrev]
  have hfun : pipPrev (m + 1) ∘ Nat.succ = id := by
    funext k
    simp [pipPrev]
  have hmap : (List.range (m + 1)).map (pipPrev (m + 1)) = m :: List.range m := by
    rw [List.range_succ_eq_map, List.map_cons, List.map_map, h0, hfun,
      List.map_id]
  rw [hmap, List.range_succ]
  exact (List.perm_append_singleton _ _).symm

theorem countP_cycle_even (len : ℕ) (h : 0 < len) (f : ℕ → Bool) :
    (List.range len).countP (fun i => f i != f (pipPrev len i)) % 2 = 0 := by
  have hparity := countP_bne_parity f (fun i => f (pipPrev len i))
    (List.range len)
  have hcomp : (List.range len).countP (fun i => f (pipPrev len i)) =
      ((List.range len).map (pipPrev len)).countP f := by
    rw [List.countP_map]
    rfl
  have hperm : ((List.range len).map (pipPrev len)).countP f =
      (List.range len).countP f :=
    (map_pipPrev_perm len h).countP_eq f
  omega

theorem tdiv_bound_nn (a c b : Int) (hb : 0 < b) (hc0 : 0 ≤ c) (hcb : c ≤ b)
    (ha : 0 ≤ a) : 0 ≤ Int.tdiv (a * c) b ∧ Int.tdiv (a * c) b ≤ a := by
  constructor
  · exact Int.tdiv_nonneg (mul_nonneg ha hc0) hb.le
  · rw [Int.tdiv_eq_ediv (mul_nonneg ha hc0) hb.le]
    calc a * c / b ≤ a * b / b := Int.ediv_le_ediv hb (by nlinarith)
    _ = a := Int.mul_ediv_cancel a hb.ne'

theorem tdiv_bound_pos_b (a c b : Int) (hb : 0 < b) (hc0 : 0 ≤ c)
    (hcb : c ≤ b) :
    min 0 a ≤ Int.tdiv (a * c) b ∧ Int.tdiv (a * c) b ≤ max 0 a := by
  rcases le_or_lt 0 a with ha | ha
  · obtain ⟨h1, h2⟩ := tdiv_bound_nn a c b hb hc0 hcb ha
    omega
  · obtain ⟨h1, h2⟩ := tdiv_bound_nn (-a) c b hb hc0 hcb (by omega)
    have hneg : Int.tdiv (a * c) b = -Int.tdiv (-a * c) b := by
      rw [show a * c = -(-a * c) from by ring, Int.neg_tdiv]
    omega

theorem tdiv_bound (a c b : Int)
    (h : (0 < b ∧ 0 ≤ c ∧ c ≤ b) ∨ (b < 0 ∧ b ≤ c ∧ c ≤ 0)) :
    min 0 a ≤ Int.tdiv (a * c) b ∧ Int.tdiv (a * c) b ≤ max 0 a := by
  rcases h with ⟨hb, hc0, hcb⟩ | ⟨hb, hbc, hc0⟩
  · exact tdiv_bound_pos_b a c b hb hc0 hcb
  · have hbd := tdiv_bound_pos_b a (-c) (-b) (by omega) (by omega) (by omega)
    have heq : Int.tdiv (a * -c) (-b) = Int.tdiv (a * c) b := by
      rw [Int.tdiv_neg, show a * -c = -(a * c) from by ring, Int.neg_tdiv]
      omega
    omega

/-- Bound on the ray-casting intersection abscissa of a crossing edge. -/
theorem pip_t_bound (pI pJ : LassoPoint) (y : Int)
    (hcross : (decide (pI.y > y) != decide (pJ.y > y)) = true) :
    min pI.x pJ.x ≤
      Int.tdiv ((pJ.x - pI.x) * (y - pI.y)) (pJ.y - pI.y) + pI.x ∧
    Int.tdiv ((pJ.x - pI.x) * (y - pI.y)) (pJ.y - pI.y) + pI.x ≤
      max pI.x pJ.x := by
  have hd := tdiv_bound (pJ.x - pI.x) (y - pI.y) (pJ.y - pI.y) ?_
  · omega
  · by_cases h1 : pI.y > y <;> by_cases h2 : pJ.y > y
    · exfalso
      simp [h1, h2] at hcross
    · right
      omega
    · left
      omega
    · exfalso
      simp [h1, h2] at hcross

theorem pget_mem (l : List LassoPoint) (i : ℕ) (h : i < l.length) :
    pget l i ∈ l := by
  unfold pget
  rw [List.getD_eq_getElem _ _ h]
  exact List.getElem_mem h

theorem pipPrev_lt (len i : ℕ) (h : 0 < len) (h2 : i < len) :
    pipPrev len i < len := by
  unfold pipPrev
  split <;> omega

/-- Outside the box that bounds every polygon vertex, ray casting reports
false: above/below the box no edge crosses the scanline; right of the box
no intersection lies right of `x`; left of the box every crossing edge
does, and a cyclic polygon has an even number of crossings. -/
theorem pointInPolygon_outside (s : LassoSelection) (x y : Int)
    (hpoly : ∀ v ∈ s.queryPoly,
      s.m_boundingBox.minX ≤ v.x ∧ v.x ≤ s.m_boundingBox.maxX ∧
      s.m_boundingBox.minY ≤ v.y ∧ v.y ≤ s.m_boundingBox.maxY)
    (hout : x < s.m_boundingBox.minX ∨ s.m_boundingBox.maxX < x ∨
      y < s.m_boundingBox.minY ∨ s.m_boundingBox.maxY < y) :
    s.pointInPolygon x y = false := by
  unfold LassoSelection.pointInPolygon
  by_cases hlen : s.queryPoly.length < 3
  · rw [if_pos hlen]
  · rw [if_neg hlen]
    have hlen0 : 0 < s.queryPoly.length := by omega
    have hcount : (List.range s.queryPoly.length).countP
        (pipCond s.queryPoly x y) % 2 = 0 := by
      rcases hout with hx | hx | hy | hy
      · -- x < minX: every crossing toggles; crossings are even
        have hcongr : (List.range s.queryPoly.length).countP
            (pipCond s.queryPoly x y) =
            (List.range s.queryPoly.length).countP
              (fun i => decide ((pget s.queryPoly i).y > y) !=
                decide ((pget s.queryPoly
                  (pipPrev s.queryPoly.length i)).y > y)) := by
          apply List.countP_congr
          intro i hi
          rw [List.mem_range] at hi
          unfold pipCond
          constructor
          · intro hc
            rw [Bool.and_eq_true] at hc
            exact hc.1
          · intro hc
            rw [Bool.and_eq_true]
            refine ⟨hc, ?_⟩
            have hb := pip_t_bound (pget s.queryPoly i)
              (pget s.queryPoly (pipPrev s.queryPoly.length i)) y hc
            have h1 := (hpoly _ (pget_mem _ i hi)).1
            have h2 := (hpoly _ (pget_mem _ _
              (pipPrev_lt s.queryPoly.length i hlen0 hi))).1
            simp only [decide_eq_true_eq]
            omega
        rw [hcongr]
        exact countP_cycle_even s.queryPoly.length hlen0 _
      · -- maxX < x: no toggle fires
        rw [List.countP_eq_zero.mpr]
        intro i hi hc
        rw [List.mem_range] at hi
        unfold pipCond at hc
        rw [Bool.and_eq_true] at hc
        obtain ⟨hA, hB⟩ := hc
        have hb := pip_t_bound (pget s.queryPoly i)
          (pget s.queryPoly (pipPrev s.queryPoly.length i)) y hA
        have h1 := (hpoly _ (pget_mem _ i hi)).2.1
        have h2 := (hpoly _ (pget_mem _ _
          (pipPrev_lt s.queryPoly.length i hlen0 hi))).2.1
        rw [decide_eq_true_eq] at hB
        omega
      · -- y < minY: no edge crosses
        rw [List.countP_eq_zero.mpr]
        intro i hi hc
        rw [List.mem_range] at hi
        unfold pipCond at hc
        rw [Bool.and_eq_true] at hc
        obtain ⟨hA, _⟩ := hc
        rw [bne_iff_ne] at hA
        apply hA
        rw [decide_eq_decide]
        have h1 := (hpoly _ (pget_mem _ i hi)).2.2.1
        have h2 := (hpoly _ (pget_mem _ _
          (pipPrev_lt s.queryPoly.length i hlen0 hi))).2.2.1
        exact iff_of_true (by omega) (by omega)
      · -- maxY < y: no edge crosses
        rw [List.countP_eq_zero.mpr]
        intro i hi hc
        rw [List.mem_range] at hi
        unfold pipCond at hc
        rw [Bool.and_eq_true] at hc
        obtain ⟨hA, _⟩ := hc
        rw [bne_iff_ne] at hA
        apply hA
        rw [decide_eq_decide]
        have h1 := (hpoly _ (pget_mem _ i hi)).2.2.2
        have h2 := (hpoly _ (pget_mem _ _
          (pipPrev_lt s.queryPoly.length i hlen0 hi))).2.2.2
        exact iff_of_false (by omega) (by omega)
    rw [foldl_toggle]
    simp [hcount]

theorem interp_bound (xa ya xb yb : Int) (hy : ya < yb) (z : Int)
    (hz1 : ya ≤ z) (hz2 : z ≤ yb) (lo hi : Int)
    (hxa : lo ≤ xa ∧ xa ≤ hi) (hxb : lo ≤ xb ∧ xb ≤ hi) :
    (lo : ℚ) ≤ (xa : ℚ) + ((xb : ℚ) - xa) / ((yb : ℚ) - ya) * ((z : ℚ) - ya) ∧
    (xa : ℚ) + ((xb : ℚ) - xa) / ((yb : ℚ) - ya) * ((z : ℚ) - ya) ≤
      (hi : ℚ) := by
  have hD : (0 : ℚ) < (yb : ℚ) - ya := by
    have : (ya : ℚ) < yb := by exact_mod_cast hy
    linarith
  have hzq1 : (ya : ℚ) ≤ z := by exact_mod_cast hz1
  have hzq2 : (z : ℚ) ≤ yb := by exact_mod_cast hz2
  have hxa1 : (lo : ℚ) ≤ xa := by exact_mod_cast hxa.1
  have hxa2 : (xa : ℚ) ≤ hi := by exact_mod_cast hxa.2
  have hxb1 : (lo : ℚ) ≤ xb := by exact_mod_cast hxb.1
  have hxb2 : (xb : ℚ) ≤ hi := by exact_mod_cast hxb.2
  have hval : (xa : ℚ) + ((xb : ℚ) - xa) / ((yb : ℚ) - ya) * ((z : ℚ) - ya) =
      ((xa : ℚ) * ((yb : ℚ) - z) + (xb : ℚ) * ((z : ℚ) - ya)) /
        ((yb : ℚ) - ya) := by
    field_simp
    ring
  rw [hval]
  constructor
  · rw [le_div_iff₀ hD]
    nlinarith [mul_nonneg (sub_nonneg.mpr hxa1) (sub_nonneg.mpr hzq2),
      mul_nonneg (sub_nonneg.mpr hxb1) (sub_nonneg.mpr hzq1)]
  · rw [div_le_iff₀ hD]
    nlinarith [mul_nonneg (sub_nonneg.mpr hxa2) (sub_nonneg.mpr hzq2),
      mul_nonneg (sub_nonneg.mpr hxb2) (sub_nonneg.mpr hzq1)]

theorem edgeOk_advance (lo hi : Int) (y : Int) (e : LassoEdge)
    (h : edgeOk lo hi y e) (hy : y < e.yMax) :
    edgeOk lo hi (y + 1) { e with x := e.x + e.invSlope } := by
  obtain ⟨_, h2⟩ := h
  refine ⟨(by omega : y + 1 ≤ e.yMax), ?_⟩
  intro z hz1 hz2
  have heq : ∀ w : ℚ, e.x + e.invSlope + e.invSlope * (w - ((y : ℚ) + 1)) =
      e.x + e.invSlope * (w - (y : ℚ)) := by
    intro w
    ring
  have hys : (((y + 1 : Int)) : ℚ) = (y : ℚ) + 1 := by push_cast; ring
  have hb := h2 z (by omega) hz2
  constructor
  · calc (lo : ℚ) ≤ e.x + e.invSlope * ((z : ℚ) - (y : ℚ)) := hb.1
    _ = e.x + e.invSlope + e.invSlope * ((z : ℚ) - (((y + 1 : Int)) : ℚ)) := by
        rw [hys, heq]
  · calc e.x + e.invSlope + e.invSlope * ((z : ℚ) - (((y + 1 : Int)) : ℚ)) =
        e.x + e.invSlope * ((z : ℚ) - (y : ℚ)) := by rw [hys, heq]
    _ ≤ (hi : ℚ) := hb.2

/-- A freshly built edge is sound at its own `yMin` scanline, provided both
endpoints have x within `[lo, hi]`. -/
theorem edgeOf_ok (p1 p2 : LassoPoint) (yMin : Int) (e : LassoEdge)
    (he : edgeOf p1 p2 = some (yMin, e)) (lo hi : Int)
    (h1 : lo ≤ p1.x ∧ p1.x ≤ hi) (h2 : lo ≤ p2.x ∧ p2.x ≤ hi) :
    edgeOk lo hi yMin e := by
  unfold edgeOf at he
  by_cases hy : p1.y = p2.y
  · rw [if_pos hy] at he
    cases he
  · rw [if_neg hy] at he
    rw [Option.some.injEq, Prod.mk.injEq] at he
    obtain ⟨hymin, hed⟩ := he
    subst hymin
    subst hed
    rcases lt_or_gt_of_ne hy with hlt | hgt
    · constructor
      · simp only []
        omega
      · intro z hz1 hz2
        rw [if_pos hlt]
        have hb := interp_bound p1.x p1.y p2.x p2.y hlt z
          (by omega) (by simp only [] at hz2; omega) lo hi h1 h2
        constructor
        · calc (lo : ℚ) ≤
              (p1.x : ℚ) + ((p2.x : ℚ) - p1.x) / ((p2.y : ℚ) - p1.y) *
                ((z : ℚ) - p1.y) := hb.1
          _ = (p1.x : ℚ) + ((p2.x : ℚ) - p1.x) / ((p2.y : ℚ) - p1.y) *
                ((z : ℚ) - ((min p1.y p2.y : Int) : ℚ)) := by
              rw [min_eq_left hlt.le]
        · calc (p1.x : ℚ) + ((p2.x : ℚ) - p1.x) / ((p2.y : ℚ) - p1.y) *
              ((z : ℚ) - ((min p1.y p2.y : Int) : ℚ)) =
              (p1.x : ℚ) + ((p2.x : ℚ) - p1.x) / ((p2.y : ℚ) - p1.y) *
                ((z : ℚ) - p1.y) := by rw [min_eq_left hlt.le]
          _ ≤ (hi : ℚ) := hb.2
    · have hflip : ((p2.x : ℚ) - p1.x) / ((p2.y : ℚ) - p1.y) =
          ((p1.x : ℚ) - p2.x) / ((p1.y : ℚ) - p2.y) := by
        rw [show ((p1.x : ℚ) - p2.x) = -((p2.x : ℚ) - p1.x) from by ring,
          show ((p1.y : ℚ) - p2.y) = -((p2.y : ℚ) - p1.y) from by ring,
          neg_div_neg_eq]
      constructor
      · simp only []
        omega
      · intro z hz1 hz2
        rw [if_neg (by omega)]
        have hb := interp_bound p2.x p2.y p1.x p1.y hgt z
          (by omega) (by simp only [] at hz2; omega) lo hi h2 h1
        constructor
        · calc (lo : ℚ) ≤
              (p2.x : ℚ) + ((p1.x : ℚ) - p2.x) / ((p1.y : ℚ) - p2.y) *
                ((z : ℚ) - p2.y) := hb.1
          _ = (p2.x : ℚ) + ((p2.x : ℚ) - p1.x) / ((p2.y : ℚ) - p1.y) *
                ((z : ℚ) - ((min p1.y p2.y : Int) : ℚ)) := by
              rw [hflip, min_eq_right hgt.le]
        · calc (p2.x : ℚ) + ((p2.x : ℚ) - p1.x) / ((p2.y : ℚ) - p1.y) *
              ((z : ℚ) - ((min p1.y p2.y : Int) : ℚ)) =
              (p2.x : ℚ) + ((p1.x : ℚ) - p2.x) / ((p1.y : ℚ) - p2.y) *
                ((z : ℚ) - p2.y) := by rw [hflip, min_eq_right hgt.le]
          _ ≤ (hi : ℚ) := hb.2

theorem mem_sortByX (l : List LassoEdge) (e : LassoEdge) :
    e ∈ sortByX l ↔ e ∈ l :=
  (List.perm_insertionSort _ l).mem_iff

/-- Each emitted cell of a scanline sits at that scanline, carries the
floor, and lies between the ceil of some active x and the floor of some
active x. -/
theorem pairRows_bound (floorIdx y : Int) :
    ∀ (l : List LassoEdge), ∀ c ∈ pairRows floorIdx y l,
      c.y = y ∧ c.z = floorIdx ∧
      ∃ a b, a ∈ l ∧ b ∈ l ∧ ⌈a.x⌉ ≤ c.x ∧ c.x ≤ ⌊b.x⌋ := by
  intro l
  induction l using pairRows.induct floorIdx y with
  | case1 a b rest ih =>
    intro c hc
    rw [pairRows] at hc
    rcases List.mem_append.mp hc with h | h
    · unfold rangeCells at h
      obtain ⟨k, hk, he⟩ := List.mem_map.mp h
      rw [List.mem_range] at hk
      subst he
      refine ⟨rfl, rfl, a, b, List.mem_cons_self _ _,
        List.mem_cons_of_mem _ (List.mem_cons_self _ _), ?_, ?_⟩
      · simp only []
        omega
      · simp only []
        omega
    · obtain ⟨hcy, hcz, a2, b2, ha2, hb2, hx1, hx2⟩ := ih c h
      exact ⟨hcy, hcz, a2, b2,
        List.mem_cons_of_mem _ (List.mem_cons_of_mem _ ha2),
        List.mem_cons_of_mem _ (List.mem_cons_of_mem _ hb2), hx1, hx2⟩
  | case2 t h1 =>
    intro c hc
    cases t with
    | nil => simp [pairRows] at hc
    | cons a tl =>
      cases tl with
      | nil => simp [pairRows] at hc
      | cons b rest => exact absurd rfl (h1 a b rest)

/-- The scanline loop only emits cells with x in `[lo, hi]`, y within the
processed rows, and the pass-through floor. -/
theorem scanLoop_bound (floorIdx lo hi : Int) (bucket : Int → List LassoEdge)
    (hb : ∀ y e, e ∈ bucket y → edgeOk lo hi y e) :
    ∀ (k : ℕ) (y0 : Int) (active : List LassoEdge) (tiles : List Position),
      (∀ e ∈ active, edgeOk lo hi y0 e) →
      ∀ c ∈ scanLoop floorIdx bucket
          ((List.range k).map (fun j : ℕ => y0 + (j : Int))) active tiles,
        c ∈ tiles ∨ (lo ≤ c.x ∧ c.x ≤ hi ∧ y0 ≤ c.y ∧ c.y < y0 + (k : Int) ∧
          c.z = floorIdx) := by
  intro k
  induction k with
  | zero =>
    intro y0 active tiles _ c hc
    exact Or.inl hc
  | succ k ih =>
    intro y0 active tiles hact c hc
    have hsplit : (List.range (k + 1)).map (fun j : ℕ => y0 + (j : Int)) =
        y0 :: (List.range k).map (fun j : ℕ => (y0 + 1) + (j : Int)) := by
      rw [List.range_succ_eq_map, List.map_cons, List.map_map]
      congr 1
      · simp
      · apply List.map_congr_left
        intro j _
        simp only [Function.comp_apply]
        push_cast
        ring
    rw [hsplit, scanLoop] at hc
    have hmerged : ∀ e ∈ (active ++ bucket y0).filter
        (fun e => decide (e.yMax ≠ y0)), edgeOk lo hi y0 e ∧ e.yMax ≠ y0 := by
      intro e he
      rw [List.mem_filter] at he
      obtain ⟨hmem, hne⟩ := he
      rw [decide_eq_true_eq] at hne
      rcases List.mem_append.mp hmem with h | h
      · exact ⟨hact e h, hne⟩
      · exact ⟨hb y0 e h, hne⟩
    by_cases hemp : ((active ++ bucket y0).filter
        (fun e => decide (e.yMax ≠ y0))).isEmpty
    · rw [if_pos hemp] at hc
      have hnil : (active ++ bucket y0).filter
          (fun e => decide (e.yMax ≠ y0)) = [] := List.isEmpty_iff.mp hemp
      rcases ih (y0 + 1) _ tiles
        (by
          rw [hnil]
          intro e he
          cases he) c hc with h | h
      · exact Or.inl h
      · right
        push_cast at h ⊢
        obtain ⟨a1, a2, a3, a4, a5⟩ := h
        exact ⟨a1, a2, by omega, by omega, a5⟩
    · rw [if_neg hemp] at hc
      have hsortOk : ∀ e ∈ sortByX ((active ++ bucket y0).filter
          (fun e => decide (e.yMax ≠ y0))), edgeOk lo hi y0 e ∧ e.yMax ≠ y0 := by
        intro e he
        exact hmerged e ((mem_sortByX _ e).mp he)
      rcases ih (y0 + 1) _ _
        (by
          intro e he
          obtain ⟨e0, he0, heq⟩ := List.mem_map.mp he
          obtain ⟨hok, hne⟩ := hsortOk e0 he0
          rw [← heq]
          exact edgeOk_advance lo hi y0 e0 hok
            (by
              obtain ⟨hle, _⟩ := hok
              omega)) c hc with h | h
      · rcases List.mem_append.mp h with h | h
        · exact Or.inl h
        · right
          obtain ⟨hcy, hcz, a, b, hma, hmb, hx1, hx2⟩ :=
            pairRows_bound floorIdx y0 _ c h
          obtain ⟨hoka, hnea⟩ := hsortOk a hma
          obtain ⟨hokb, hneb⟩ := hsortOk b hmb
          have hya : y0 < a.yMax := by
            obtain ⟨hle, _⟩ := hoka
            omega
          have hyb : y0 < b.yMax := by
            obtain ⟨hle, _⟩ := hokb
            omega
          have hax := (hoka.2 y0 (le_refl _) hya)
          have hbx := (hokb.2 y0 (le_refl _) hyb)
          rw [sub_self, mul_zero, add_zero] at hax hbx
          have hcl : lo ≤ c.x := by
            have h1 : (lo : Int) = ⌈((lo : Int) : ℚ)⌉ := (Int.ceil_intCast _).symm
            have h2 : ⌈((lo : Int) : ℚ)⌉ ≤ ⌈a.x⌉ := Int.ceil_le_ceil hax.1
            omega
          have hcr : c.x ≤ hi := by
            have h1 : (hi : Int) = ⌊((hi : Int) : ℚ)⌋ := (Int.floor_intCast _).symm
            have h2 : ⌊b.x⌋ ≤ ⌊((hi : Int) : ℚ)⌋ := Int.floor_le_floor hbx.2
            omega
          refine ⟨hcl, hcr, by omega, ?_, hcz⟩
          push_cast
          omega
      · right
        push_cast at h ⊢
        obtain ⟨a1, a2, a3, a4, a5⟩ := h
        exact ⟨a1, a2, by omega, by omega, a5⟩

/-- Every cell emitted by `getTilesInPolygon` lies inside the bounding box
(and carries the requested floor), provided the box bounds the x-range of
the query polygon's vertices. -/
theorem fill_within_bbox (s : LassoSelection) (floorIdx : Int)
    (hpoly : ∀ v ∈ s.queryPoly,
      s.m_boundingBox.minX ≤ v.x ∧ v.x ≤ s.m_boundingBox.maxX) :
    ∀ c ∈ s.getTilesInPolygon floorIdx,
      s.m_boundingBox.minX ≤ c.x ∧ c.x ≤ s.m_boundingBox.maxX ∧
      s.m_boundingBox.minY ≤ c.y ∧ c.y ≤ s.m_boundingBox.maxY ∧
      c.z = floorIdx := by
  intro c hc
  unfold LassoSelection.getTilesInPolygon at hc
  split at hc
  · cases hc
  · unfold LassoSelection.scanlineFillAET at hc
    by_cases hq : s.queryPoly.length < 3
    · rw [if_pos hq] at hc
      cases hc
    · rw [if_neg hq] at hc
      by_cases hv : s.m_boundingBox.isValid
      · rw [if_neg (by simp [hv])] at hc
        have hvv := hv
        unfold LassoBoundingBox.isValid at hvv
        simp only [Bool.and_eq_true, decide_eq_true_eq] at hvv
        have hyy : s.m_boundingBox.minY ≤ s.m_boundingBox.maxY := hvv.2
        have hb : ∀ y e, e ∈ bucketAt s.queryPoly s.m_boundingBox.minY
            s.m_boundingBox.maxY y →
            edgeOk s.m_boundingBox.minX s.m_boundingBox.maxX y e := by
          intro y e he
          unfold bucketAt at he
          rw [List.mem_filterMap] at he
          obtain ⟨pq, hpq, hfe⟩ := he
          obtain ⟨p1, p2⟩ := pq
          split at hfe
          · cases hfe
          · rename_i yme heo
            split at hfe
            · rename_i hcond
              rw [Option.some.injEq] at hfe
              have heq2 : edgeOf p1 p2 = some (y, e) := by
                rw [heo, ← hcond.1, ← hfe]
              unfold edgePairs at hpq
              have hmemb := List.of_mem_zip hpq
              exact edgeOf_ok p1 p2 y e heq2 _ _
                (hpoly p1 hmemb.1)
                (hpoly p2 (List.tail_subset _ hmemb.2))
            · cases hfe
        have hmain := scanLoop_bound floorIdx s.m_boundingBox.minX
          s.m_boundingBox.maxX
          (bucketAt s.queryPoly s.m_boundingBox.minY s.m_boundingBox.maxY) hb
          (s.m_boundingBox.maxY + 1 - s.m_boundingBox.minY).toNat
          s.m_boundingBox.minY [] []
          (by intro e he; cases he) c hc
        rcases hmain with h | h
        · cases h
        · obtain ⟨a1, a2, a3, a4, a5⟩ := h
          refine ⟨a1, a2, a3, ?_, a5⟩
          omega
      · rw [if_pos (by simp [hv])] at hc
        cases hc

/-- C6 counterexample: the fill of the closed square (0,0),(0,3),(3,3),(3,0)
emits the boundary cell (3,0,0), but `pointInPolygon(3, 0)` reports false
(the ray-cast test `x < intersection` is strict, so right-boundary cells
are outside); the first half of the claim fails on filled boundary cells. -/
theorem fill_contains_mismatch :
    ({ x := 3, y := 0, z := 0 } : Position) ∈ squareSession.getTilesInPolygon 0 ∧
      squareSession.pointInPolygon 3 0 = false := by
  constructor
  · with_unfolding_all decide
  · with_unfolding_all decide

/-- C6 amended: the outside-the-bounding-box half of the claim holds.  For
any point strictly outside a box that bounds every vertex of the query
polygon, `pointInPolygon` returns false and `getTilesInPolygon` emits no
cell at that point (on any floor).  On filled boundary cells, by contrast,
containment can disagree with the fill (see the counterexample). -/
theorem fill_contains_consistency (s : LassoSelection) (x y floorIdx : Int)
    (hpoly : ∀ v ∈ s.queryPoly,
      s.m_boundingBox.minX ≤ v.x ∧ v.x ≤ s.m_boundingBox.maxX ∧
      s.m_boundingBox.minY ≤ v.y ∧ v.y ≤ s.m_boundingBox.maxY)
    (hout : x < s.m_boundingBox.minX ∨ s.m_boundingBox.maxX < x ∨
      y < s.m_boundingBox.minY ∨ s.m_boundingBox.maxY < y) :
    s.pointInPolygon x y = false ∧
      ∀ c ∈ s.getTilesInPolygon floorIdx, c.x ≠ x ∨ c.y ≠ y := by
  constructor
  · exact pointInPolygon_outside s x y hpoly hout
  · intro c hc
    have hb := fill_within_bbox s floorIdx
      (fun v hv => ⟨(hpoly v hv).1, (hpoly v hv).2.1⟩) c hc
    omega

theorem fill_contains_consistency_witness :
    squareSession.pointInPolygon 10 10 = false ∧
      ∀ c ∈ squareSession.getTilesInPolygon 0, c.x ≠ 10 ∨ c.y ≠ 10 :=
  fill_contains_consistency squareSession 10 10 0
    (by with_unfolding_all decide) (by with_unfolding_all decide)
